import Mathlib

/-!
# ComfyUI-DaiMao_Tools: the anime character picker

A shallow embedding of the two front-end files

* `src/js/anime_name_helper_ui.js`      (the flat variant, namespace `Flat`)
* `src/web/js/anime_name_helper_ui.js`  (the grouped variant, namespace `Web`)

Every event handler of the source is a function on an explicit state: the
DOM elements the handler reads and writes, the widget list of the owning node,
the number of `setDirtyCanvas` calls and the `console.error` lines.  One run of
a handler is one transition; which user gesture makes the browser run a
handler, and how often, is the browser's business and not part of the model.
The one browser action the model keeps is the default action of a click on a
checkbox of the grouped variant (`Web.checkboxOnclick`): the handler of that
click exists to keep the click away from the tag's handler.  In the flat
variant such a click bubbles to the tag, whose handler overwrites the box, so
there it is a run of `Flat.tagOnclick`.  Output of `console.log` is not
modelled.  Strings are Unicode strings without lone surrogates.
-/

set_option maxRecDepth 100000

namespace AnimeNameHelper

/-! ## Data shared by both variants -/

/-- One element of the array the backend returns. -/
structure CharacterRecord where
  character_english_name : String
  character_chinese_name : String
  anime_english_name : String
  anime_chinese_name : String
  gender : String
  role : String
deriving DecidableEq

/-- The array a successful fetch yields, in backend order. -/
abbrev Catalog := List CharacterRecord

/-- A widget of the host node: only the two properties the handlers touch. -/
structure Widget where
  name : String
  value : String
deriving DecidableEq

/-- The host node: its `widgets` array and the number of `setDirtyCanvas(true, true)` calls. -/
structure Node where
  widgets : List Widget
  dirtyCanvas : Nat
deriving DecidableEq

/-- The result of `node.widgets.find(w => w.name === "selected_data")`. -/
def findSelectedData (ws : List Widget) : Option Widget :=
  ws.find? (fun w => decide (w.name = "selected_data"))

/-- The assignment `selectedDataWidget.value = v`: it mutates the widget object that
`find` returned, which is the first widget of that name. -/
def writeSelectedData (v : String) : List Widget → List Widget
  | [] => []
  | w :: ws =>
    if w.name = "selected_data" then { w with value := v } :: ws
    else w :: writeSelectedData v ws

/-- What a later reader of the node sees in `selected_data`. -/
def selectedDataValue (n : Node) : Option String :=
  (findSelectedData n.widgets).map (fun w => w.value)

/-- Apply `f` to the element at position `i`; a position past the end changes nothing. -/
def updateAt {α : Type} (f : α → α) : List α → Nat → List α
  | [], _ => []
  | a :: as, 0 => f a :: as
  | a :: as, i + 1 => a :: updateAt f as i

/-! ## `JSON.stringify` on the two shapes the handlers pass to it -/

/-- The double quote. -/
def dquote : Char := Char.ofNat 34

/-- The backslash. -/
def backslash : Char := Char.ofNat 92

/-- A lower-case hexadecimal digit. -/
def hexLower (n : Nat) : Char :=
  if n < 10 then Char.ofNat (48 + n) else Char.ofNat (87 + n)

/-- An upper-case hexadecimal digit. -/
def hexUpper (n : Nat) : Char :=
  if n < 10 then Char.ofNat (48 + n) else Char.ofNat (55 + n)

/-- The escape of one character inside a JSON string literal (ECMAScript `QuoteJSONString`). -/
def quoteJSONChar (c : Char) : List Char :=
  if c = dquote then [backslash, dquote]
  else if c = backslash then [backslash, backslash]
  else if c.toNat = 8 then [backslash, 'b']
  else if c.toNat = 12 then [backslash, 'f']
  else if c.toNat = 10 then [backslash, 'n']
  else if c.toNat = 13 then [backslash, 'r']
  else if c.toNat = 9 then [backslash, 't']
  else if c.toNat < 32 then
    [backslash, 'u', '0', '0', hexLower (c.toNat / 16), hexLower (c.toNat % 16)]
  else [c]

/-- The value `JSON.stringify` gives for a string. -/
def quoteJSONString (s : String) : String :=
  ⟨dquote :: (s.data.flatMap quoteJSONChar ++ [dquote])⟩

/-- The value `JSON.stringify` gives for an array whose elements are already encoded. -/
def stringifyArray (encoded : List String) : String :=
  "[" ++ ",".intercalate encoded ++ "]"

/-- The call `JSON.stringify(selected)` for an array of strings (flat variant). -/
def stringifyNames (selected : List String) : String :=
  stringifyArray (selected.map quoteJSONString)

/-! ## `encodeURIComponent` and the request URL -/

/-- The characters `encodeURIComponent` leaves alone. -/
def uriUnreserved (c : Char) : Bool :=
  c.isAlphanum || "-_.!~*()".data.contains c || c.toNat = 39

/-- The UTF-8 octets of a code point. -/
def utf8Octets (n : Nat) : List Nat :=
  if n < 128 then [n]
  else if n < 2048 then [192 + n / 64, 128 + n % 64]
  else if n < 65536 then [224 + n / 4096, 128 + n / 64 % 64, 128 + n % 64]
  else [240 + n / 262144, 128 + n / 4096 % 64, 128 + n / 64 % 64, 128 + n % 64]

/-- One octet as `%XX`. -/
def percentEncodeOctet (b : Nat) : List Char :=
  ['%', hexUpper (b / 16), hexUpper (b % 16)]

/-- The built-in `encodeURIComponent`: every character outside the unreserved set is
replaced by the percent-encoded octets of its UTF-8 form. -/
def encodeURIComponent (s : String) : String :=
  ⟨s.data.flatMap (fun c =>
    if uriUnreserved c then [c] else (utf8Octets c.toNat).flatMap percentEncodeOctet)⟩

/-- The template literal passed to `api.fetchApi`. -/
def requestUrl (query filter : String) : String :=
  "/anime_name_helper/get_anime_names?query=" ++ encodeURIComponent query
    ++ "&filter=" ++ encodeURIComponent filter

/-! ## `getAnimeCharacters` (identical in both files) -/

/-- A fulfilled `api.fetchApi` promise: the status and what `resp.json()` settles to
(the parsed array, or the reason it rejects with). -/
structure Response where
  status : Nat
  json : Except String Catalog

/-- How the promise of an `async` function settles. -/
inductive Settled (α : Type) where
  | resolved : α → Settled α
  | rejected : String → Settled α
deriving DecidableEq

/-- The host's `api.fetchApi`, as seen by one call: the URL decides how the promise settles. -/
abbrev FetchApi := String → Settled Response

/-- The function `getAnimeCharacters(query, filter)`.  The first component is how the
returned promise settles, the second is `anime_characters_cache` afterwards.  There is no
`try`/`catch`: a rejected `await` rejects the function's own promise. -/
def getAnimeCharacters (fetchApi : FetchApi) (anime_characters_cache : Catalog)
    (query filter : String) : Settled Catalog × Catalog :=
  match fetchApi (requestUrl query filter) with
  | .rejected e => (.rejected e, anime_characters_cache)
  | .resolved resp =>
    if resp.status = 200 then
      match resp.json with
      | .error e => (.rejected e, anime_characters_cache)
      | .ok data => (.resolved data, data)
    else (.resolved [], anime_characters_cache)

/-! ## The flat variant, `src/js/anime_name_helper_ui.js` -/

namespace Flat

/-- A `label.anime-character-tag` element built by `getCharacterTagList`. -/
structure Tag where
  /-- The property `dataset.name`, also the `name` of the checkbox. -/
  name : String
  /-- The property `dataset.englishName`. -/
  englishName : String
  /-- The property `dataset.anime`. -/
  anime : String
  /-- The property `dataset.gender`. -/
  gender : String
  /-- The property `dataset.role`. -/
  role : String
  /-- The property `dataset.index`; the DOM stores the number as its decimal string. -/
  index : String
  /-- Text of the first `span`. -/
  nameText : String
  /-- Text of the second `span`. -/
  infoText : String
  /-- Whether `classList` contains `anime-character-tag-selected`. -/
  selected : Bool
  /-- The `checked` state of `children[0]`, the checkbox. -/
  checked : Bool
deriving DecidableEq

/-- The element pushed for `item` at position `i`. -/
def createTag (language : String) (i : Nat) (item : CharacterRecord) : Tag :=
  let name := if language = "zh-CN" then item.character_chinese_name
    else item.character_english_name
  let anime := if language = "zh-CN" then item.anime_chinese_name else item.anime_english_name
  { name := name
    englishName := item.character_english_name
    anime := anime
    gender := item.gender
    role := item.role
    index := toString i
    nameText := name ++ "（" ++ anime ++ "）"
    infoText := "【" ++ item.gender ++ "·" ++ item.role ++ "】"
    selected := false
    checked := false }

/-- The function `getCharacterTagList(node, characters, language)`: one tag per record, in
order.  The node is only captured by the click handlers, see `tagOnclick`. -/
def getCharacterTagList (characters : Catalog) (language : String) : List Tag :=
  characters.mapIdx (createTag language)

/-- One widget instance: the owning node, the children of `ul.anime-character-list`, and
the lines written with `console.error`. -/
structure State where
  node : Node
  list : List Tag
  errors : List String
deriving DecidableEq

/-- The two statements `el.classList.toggle(..)` and
`el.children[0].checked = el.classList.contains(..)`. -/
def toggleTag (t : Tag) : Tag :=
  { t with selected := !t.selected, checked := !t.selected }

/-- The array `Array.from(el.parentElement.querySelectorAll(".anime-character-tag-selected"))
.map(tag => tag.dataset.englishName)`: the parent of a tag is the list. -/
def selectedNames (list : List Tag) : List String :=
  (list.filter (fun t => t.selected)).map (fun t => t.englishName)

/-- The `onclick` handler of the tag at position `i` of the list. -/
def tagOnclick (s : State) (i : Nat) : State :=
  let list := updateAt toggleTag s.list i
  let selected := selectedNames list
  match findSelectedData s.node.widgets with
  | some _ =>
    { node := { widgets := writeSelectedData (stringifyNames selected) s.node.widgets
                dirtyCanvas := s.node.dirtyCanvas + 1 }
      list := list
      errors := s.errors }
  | none =>
    { node := s.node
      list := list
      errors := s.errors ++ ["未找到 selected_data widget"] }

/-- The body of the `forEach` in the clear button: drop the class, uncheck the box. -/
def clearTag (t : Tag) : Tag :=
  if t.selected then { t with selected := false, checked := false } else t

/-- The `onclick` handler of `button.delete`.  The query is scoped to `selector.element`,
whose only tags are the children of the list. -/
def deleteOnclick (s : State) : State :=
  let list := s.list.map clearTag
  match findSelectedData s.node.widgets with
  | some _ =>
    { node := { widgets := writeSelectedData "[]" s.node.widgets
                dirtyCanvas := s.node.dirtyCanvas + 1 }
      list := list
      errors := s.errors }
  | none => { node := s.node, list := list, errors := s.errors }

/-- The continuation of the search box's `oninput` after `await getAnimeCharacters(value, "")`:
when the fetch settles, the cache is updated, and unless the promise rejected the list is
emptied and refilled. -/
def oninputSettle (fetchApi : FetchApi) (language : String) (value : String)
    (s : State × Catalog) : State × Catalog :=
  match getAnimeCharacters fetchApi s.2 value "" with
  | (.rejected _, cache) => (s.1, cache)
  | (.resolved data, cache) =>
    ({ s.1 with list := getCharacterTagList data language }, cache)

/-- The callback of the initial `getAnimeCharacters().then(..)`: it appends, without
emptying the list first. -/
def initialLoadSettle (fetchApi : FetchApi) (language : String)
    (s : State × Catalog) : State × Catalog :=
  match getAnimeCharacters fetchApi s.2 "" "" with
  | (.rejected _, cache) => (s.1, cache)
  | (.resolved data, cache) =>
    ({ s.1 with list := s.1.list ++ getCharacterTagList data language }, cache)

/-- A widget instance together with the module's `anime_characters_cache` and the runs of
the search box's `oninput` that are suspended at their `await`, oldest first: each entry is
the `value` the run read from the box. -/
structure Session where
  widget : State
  cache : Catalog
  pending : List String
deriving DecidableEq

/-- What can happen to a widget instance.  `settle k outcome`: the fetch of the `k`-th
suspended run settles the way the backend decided, and the run resumes to its end. -/
inductive Event where
  | input (value : String)
  | settle (k : Nat) (outcome : Settled Response)
  | click (i : Nat)
  | clear

/-- One event.  An `input` event starts a run of `oninput`, which issues its request and
suspends; nothing in the handler compares a settling run with the runs started after it. -/
def step (language : String) (σ : Session) : Event → Session
  | .input value => { σ with pending := σ.pending ++ [value] }
  | .settle k outcome =>
    match σ.pending[k]? with
    | none => σ
    | some value =>
      let r := oninputSettle (fun _ => outcome) language value (σ.widget, σ.cache)
      { widget := r.1, cache := r.2, pending := σ.pending.eraseIdx k }
  | .click i => { σ with widget := tagOnclick σ.widget i }
  | .clear => { σ with widget := deleteOnclick σ.widget }

/-- A series of events, in the order in which they happen. -/
def run (language : String) (σ : Session) (events : List Event) : Session :=
  events.foldl (step language) σ

end Flat

/-! ## The grouped variant, `src/web/js/anime_name_helper_ui.js` -/

namespace Web

/-- A `label.anime-character-tag` element built by `createCharacterTag`. -/
structure Tag where
  /-- The property `dataset.name`, also the `name` of the checkbox. -/
  name : String
  /-- The property `dataset.englishName`. -/
  englishName : String
  /-- The property `dataset.chineseName`. -/
  chineseName : String
  /-- The property `dataset.animeEnglishName`. -/
  animeEnglishName : String
  /-- The property `dataset.animeChineseName`. -/
  animeChineseName : String
  /-- The property `dataset.gender`. -/
  gender : String
  /-- The property `dataset.role`. -/
  role : String
  /-- Text of `span.character-name`. -/
  nameText : String
  /-- Text of `span.character-info`. -/
  infoText : String
  /-- Whether `classList` contains `anime-character-tag-selected`. -/
  selected : Bool
  /-- The `checked` state of the tag's checkbox. -/
  checked : Bool
deriving DecidableEq

/-- The function `createCharacterTag(node, character, language)`.  The node is only
captured by the click handler, see `tagOnclick`. -/
def createCharacterTag (character : CharacterRecord) (language : String) : Tag :=
  let name := if language = "zh-CN" then character.character_chinese_name
    else character.character_english_name
  { name := name
    englishName := character.character_english_name
    chineseName := character.character_chinese_name
    animeEnglishName := character.anime_english_name
    animeChineseName := character.anime_chinese_name
    gender := character.gender
    role := character.role
    nameText := name
    infoText := "【" ++ character.gender ++ "·" ++ character.role ++ "】"
    selected := false
    checked := false }

/-- A value stored in `groups` by `groupCharactersByAnime`. -/
structure Group where
  anime_chinese_name : String
  anime_english_name : String
  characters : List CharacterRecord
deriving DecidableEq

/-- The property names every object literal inherits from `Object.prototype`.  Reading one
of them from the fresh `groups = {}` gives a function (or, for `__proto__`, the prototype
object): a truthy value that has no `characters` property. -/
def objectPrototypeKeys : List String :=
  ["constructor", "hasOwnProperty", "isPrototypeOf", "propertyIsEnumerable",
   "toLocaleString", "toString", "valueOf", "__proto__", "__defineGetter__",
   "__defineSetter__", "__lookupGetter__", "__lookupSetter__"]

/-- The key computed in the first line of the `forEach` callback. -/
def animeKey (language : String) (character : CharacterRecord) : String :=
  if language = "zh-CN" then character.anime_chinese_name else character.anime_english_name

/-- The statement `groups[animeKey].characters.push(character)` on an own property. -/
def pushCharacter (key : String) (character : CharacterRecord) :
    List (String × Group) → List (String × Group)
  | [] => []
  | (k, g) :: rest =>
    if k = key then (k, { g with characters := g.characters ++ [character] }) :: rest
    else (k, g) :: pushCharacter key character rest

/-- One run of the `forEach` callback of `groupCharactersByAnime`.  The own properties of
`groups` are kept as an association list in insertion order.  For an inherited key the test
`!groups[animeKey]` is false, no group is created, `groups[animeKey].characters` is
`undefined` and the `push` throws a `TypeError`. -/
def addCharacter (language : String) (groups : List (String × Group))
    (character : CharacterRecord) : Except String (List (String × Group)) :=
  let key := animeKey language character
  if groups.any (fun p => decide (p.1 = key)) then
    .ok (pushCharacter key character groups)
  else if objectPrototypeKeys.contains key then
    .error "TypeError"
  else
    .ok (pushCharacter key character
      (groups ++ [(key, { anime_chinese_name := character.anime_chinese_name
                          anime_english_name := character.anime_english_name
                          characters := [] })]))

/-- The function `groupCharactersByAnime(characters, language)`: the own properties of the
returned object, or the exception that ends the `forEach`. -/
def groupCharactersByAnime (characters : Catalog) (language : String) :
    Except String (List (String × Group)) :=
  characters.foldlM (addCharacter language) []

/-- The UTF-16 code units of a string, the units in which ECMAScript compares strings. -/
def utf16Units (s : String) : List Nat :=
  s.data.flatMap (fun c =>
    if c.toNat < 65536 then [c.toNat]
    else [55296 + (c.toNat - 65536) / 1024, 56320 + (c.toNat - 65536) % 1024])

/-- Lexicographic comparison of code-unit sequences; a proper prefix is smaller. -/
def unitsLt : List Nat → List Nat → Bool
  | _, [] => false
  | [], _ :: _ => true
  | a :: as, b :: bs => if a < b then true else if b < a then false else unitsLt as bs

/-- The ECMAScript comparison `x < y` on strings. -/
def jsStringLt (x y : String) : Bool := unitsLt (utf16Units x) (utf16Units y)

/-- The order in which `Array.prototype.sort()` without a comparator leaves `x` before `y`. -/
def sortCompareLe (x y : String) : Prop := jsStringLt y x = false

instance : DecidableRel sortCompareLe := fun x y =>
  inferInstanceAs (Decidable (jsStringLt y x = false))

/-- The expression `Object.keys(groups).sort()`.  The keys are distinct strings, so the
sorted array does not depend on the order in which `Object.keys` lists them. -/
def sortedAnimes (groups : List (String × Group)) : List String :=
  (groups.map (fun p => p.1)).insertionSort sortCompareLe

/-- A `div.anime-group` element: its header and its `div.anime-characters-container`. -/
structure GroupElement where
  /-- Text of `span.collapse-arrow`. -/
  arrow : String
  /-- Text of the header's second inner `span`. -/
  headerText : String
  /-- Whether the container's `classList` contains `collapsed`. -/
  collapsed : Bool
  /-- The children of the container. -/
  tags : List Tag
deriving DecidableEq

/-- The template literal shown in the header. -/
def headerText (animeDisplayName : String) (count : Nat) : String :=
  "📺 " ++ animeDisplayName ++ " (" ++ toString count ++ "人)"

/-- The body of `sortedAnimes.forEach` in `getGroupedCharacterList`. -/
def createGroupElement (language : String) (group : Group) : GroupElement :=
  let animeDisplayName :=
    if language = "zh-CN" then group.anime_chinese_name else group.anime_english_name
  { arrow := "▼"
    headerText := headerText animeDisplayName group.characters.length
    collapsed := false
    tags := group.characters.map (fun character => createCharacterTag character language) }

/-- The function `getGroupedCharacterList(node, characters, language)`. -/
def getGroupedCharacterList (characters : Catalog) (language : String) :
    Except String (List GroupElement) :=
  match groupCharactersByAnime characters language with
  | .error e => .error e
  | .ok groups =>
    .ok ((sortedAnimes groups).filterMap (fun key =>
      (groups.lookup key).map (createGroupElement language)))

/-- The `onclick` handler of a group header. -/
def headerOnclick (g : GroupElement) : GroupElement :=
  { g with collapsed := !g.collapsed, arrow := if g.collapsed then "▼" else "▶" }

/-- One widget instance: the owning node and the children of `div.anime-character-list`. -/
structure Instance where
  node : Node
  list : List GroupElement
deriving DecidableEq

/-- The document: the widget instances in document order, and the `console.error` lines. -/
structure Page where
  instances : List Instance
  errors : List String
deriving DecidableEq

/-- The tags of one widget instance, in document order. -/
def instanceTags (w : Instance) : List Tag := w.list.flatMap (fun g => g.tags)

/-- The result of `document.querySelectorAll(".anime-character-tag-selected")`: the query
is on the whole document, so it ranges over every widget instance. -/
def selectedTags (instances : List Instance) : List Tag :=
  (instances.flatMap instanceTags).filter (fun t => t.selected)

/-- The object literal built for one selected tag, after `JSON.stringify`. -/
def stringifyDescriptor (tag : Tag) : String :=
  "\x7b" ++ quoteJSONString "character_english_name" ++ ":" ++ quoteJSONString tag.englishName
    ++ "," ++ quoteJSONString "character_chinese_name" ++ ":" ++ quoteJSONString tag.chineseName
    ++ "," ++ quoteJSONString "anime_english_name" ++ ":" ++ quoteJSONString tag.animeEnglishName
    ++ "," ++ quoteJSONString "anime_chinese_name" ++ ":" ++ quoteJSONString tag.animeChineseName
    ++ "," ++ quoteJSONString "gender" ++ ":" ++ quoteJSONString tag.gender
    ++ "," ++ quoteJSONString "role" ++ ":" ++ quoteJSONString tag.role ++ "\x7d"

/-- The call `JSON.stringify(selected)` for the array of descriptors. -/
def stringifySelected (selected : List Tag) : String :=
  stringifyArray (selected.map stringifyDescriptor)

/-- The two statements `el.classList.toggle(..)` and `checkbox.checked = ..`. -/
def toggleTag (t : Tag) : Tag :=
  { t with selected := !t.selected, checked := !t.selected }

/-- Apply `f` to tag `i` of group `g` of widget instance `n`. -/
def updateTag (f : Tag → Tag) (instances : List Instance) (n g i : Nat) : List Instance :=
  updateAt (fun w =>
    { w with list := updateAt (fun ge => { ge with tags := updateAt f ge.tags i }) w.list g })
    instances n

/-- The `onclick` handler of tag `i` in group `g` of widget instance `n`; the `node` it
captured is the node of that instance. -/
def tagOnclick (p : Page) (n g i : Nat) : Page :=
  let instances := updateTag toggleTag p.instances n g i
  let selected := selectedTags instances
  match instances[n]? with
  | none => { instances := instances, errors := p.errors }
  | some w =>
    match findSelectedData w.node.widgets with
    | some _ =>
      { instances := updateAt (fun w =>
          { w with node := { widgets := writeSelectedData (stringifySelected selected)
                                          w.node.widgets
                             dirtyCanvas := w.node.dirtyCanvas + 1 } }) instances n
        errors := p.errors }
    | none =>
      { instances := instances, errors := p.errors ++ ["未找到 selected_data widget"] }

/-- A click on the checkbox of a tag.  Its `onclick` handler only calls
`e.stopPropagation()`, so the tag's handler does not run; the box itself is flipped by the
browser's default action, which the handler does not cancel. -/
def checkboxOnclick (p : Page) (n g i : Nat) : Page :=
  { p with instances :=
      updateTag (fun t => { t with checked := !t.checked }) p.instances n g i }

/-- The body of the `forEach` in the clear button: drop the class, uncheck the box. -/
def clearTag (t : Tag) : Tag :=
  if t.selected then { t with selected := false, checked := false } else t

/-- The `onclick` handler of `button.delete` of widget instance `n`: the query is on the
whole document, the widget written is the one of this instance's node. -/
def deleteOnclick (p : Page) (n : Nat) : Page :=
  let instances := p.instances.map (fun w =>
    { w with list := w.list.map (fun ge => { ge with tags := ge.tags.map clearTag }) })
  { instances := updateAt (fun w =>
      match findSelectedData w.node.widgets with
      | some _ =>
        { w with node := { widgets := writeSelectedData "[]" w.node.widgets
                           dirtyCanvas := w.node.dirtyCanvas + 1 } }
      | none => w) instances n
    errors := p.errors }

/-- The statements after the `await` in the search box's `oninput` of widget instance `n`:
`list.innerHTML = ''` runs first, so a throwing `getGroupedCharacterList` leaves the list
empty. -/
def replaceList (language : String) (data : Catalog) (w : Instance) : Instance :=
  match getGroupedCharacterList data language with
  | .error _ => { w with list := [] }
  | .ok groupedElements => { w with list := groupedElements }

/-- The continuation of the search box's `oninput` of widget instance `n` after
`await getAnimeCharacters(value, "")`. -/
def oninputSettle (fetchApi : FetchApi) (language : String) (value : String) (n : Nat)
    (s : Page × Catalog) : Page × Catalog :=
  match getAnimeCharacters fetchApi s.2 value "" with
  | (.rejected _, cache) => (s.1, cache)
  | (.resolved data, cache) =>
    ({ s.1 with instances := updateAt (replaceList language data) s.1.instances n }, cache)

/-- The callback of the initial `getAnimeCharacters().then(..)` of widget instance `n`: it
appends, without emptying the list first. -/
def initialLoadSettle (fetchApi : FetchApi) (language : String) (n : Nat)
    (s : Page × Catalog) : Page × Catalog :=
  match getAnimeCharacters fetchApi s.2 "" "" with
  | (.rejected _, cache) => (s.1, cache)
  | (.resolved data, cache) =>
    match getGroupedCharacterList data language with
    | .error _ => (s.1, cache)
    | .ok groupedElements =>
      ({ s.1 with instances :=
          updateAt (fun w => { w with list := w.list ++ groupedElements }) s.1.instances n },
        cache)

/-- The page together with the module's `anime_characters_cache` and the runs of the search
boxes' `oninput` that are suspended at their `await`, oldest first: each entry is the widget
instance of the box and the `value` the run read from it. -/
structure Session where
  page : Page
  cache : Catalog
  pending : List (Nat × String)
deriving DecidableEq

/-- What can happen on the page.  `settle k outcome`: the fetch of the `k`-th suspended run
settles the way the backend decided, and the run resumes to its end. -/
inductive Event where
  | input (n : Nat) (value : String)
  | settle (k : Nat) (outcome : Settled Response)
  | click (n g i : Nat)
  | checkbox (n g i : Nat)
  | clear (n : Nat)

/-- One event.  An `input` event starts a run of `oninput`, which issues its request and
suspends; nothing in the handler compares a settling run with the runs started after it. -/
def step (language : String) (σ : Session) : Event → Session
  | .input n value => { σ with pending := σ.pending ++ [(n, value)] }
  | .settle k outcome =>
    match σ.pending[k]? with
    | none => σ
    | some (n, value) =>
      let r := oninputSettle (fun _ => outcome) language value n (σ.page, σ.cache)
      { page := r.1, cache := r.2, pending := σ.pending.eraseIdx k }
  | .click n g i => { σ with page := tagOnclick σ.page n g i }
  | .checkbox n g i => { σ with page := checkboxOnclick σ.page n g i }
  | .clear n => { σ with page := deleteOnclick σ.page n }

/-- A series of events, in the order in which they happen. -/
def run (language : String) (σ : Session) (events : List Event) : Session :=
  events.foldl (step language) σ

end Web

end AnimeNameHelper

/-! ## Statement-side definitions -/

namespace AnimeNameHelper

/-- The tag click `i` has been run an odd number of times in `clicks`. -/
def oddClicks (clicks : List Nat) (i : Nat) : Bool := decide (clicks.count i % 2 = 1)

namespace Flat

/-- The state of a freshly attached widget whose list shows `characters`. -/
def rendered (node : Node) (characters : Catalog) (language : String) : State :=
  { node := node, list := getCharacterTagList characters language, errors := [] }

/-- The english names of the records whose tag has been clicked an odd number of times, in
render order. -/
def oddNames (characters : Catalog) (clicks : List Nat) : List String :=
  (characters.enum.filter (fun p => oddClicks clicks p.1)).map
    (fun p => p.2.character_english_name)

/-- The tag of record `p.2` at position `p.1` after the clicks `clicks`. -/
def clickedTag (language : String) (clicks : List Nat) (p : Nat × CharacterRecord) : Tag :=
  { createTag language p.1 p.2 with
    selected := oddClicks clicks p.1, checked := oddClicks clicks p.1 }

end Flat

/-- The data of the last call, if any, whose response had status 200 and a parsable body. -/
def lastSuccessful : List (FetchApi × String × String) → Option Catalog
  | [] => none
  | call :: calls =>
    match lastSuccessful calls with
    | some data => some data
    | none =>
      match call.1 (requestUrl call.2.1 call.2.2) with
      | .resolved resp =>
        if resp.status = 200 then
          match resp.json with
          | .ok data => some data
          | .error _ => none
        else none
      | .rejected _ => none

/-- The cache after a series of calls, each against the backend as it answered then. -/
def cacheAfter (calls : List (FetchApi × String × String)) (cache : Catalog) : Catalog :=
  calls.foldl (fun c call => (getAnimeCharacters call.1 c call.2.1 call.2.2).2) cache

/-- A backend that answers every request with the given response. -/
def constantApi (r : Settled Response) : FetchApi := fun _ => r

/-- A node whose only widget is an empty `selected_data`. -/
def plainNode : Node :=
  { widgets := [{ name := "selected_data", value := "" }], dirtyCanvas := 0 }

/-- A record with the anime names `X` (English) and `Z` (Chinese). -/
def recordA : CharacterRecord := ⟨"A", "甲", "X", "Z", "F", "lead"⟩

/-- A record with the anime name `Y` in both languages. -/
def recordB : CharacterRecord := ⟨"B", "乙", "Y", "Y", "M", "support"⟩

namespace Web

/-- A freshly attached widget instance whose list shows `characters`. -/
def mounted (node : Node) (characters : Catalog) (language : String) : Instance :=
  replaceList language characters { node := node, list := [] }

/-- The value of `selected_data` on the node of widget instance `n`. -/
def publishedAt (p : Page) (n : Nat) : Option String :=
  p.instances[n]?.bind (fun w => selectedDataValue w.node)

/-- The tags of widget instance `n`, in document order. -/
def tagsAt (p : Page) (n : Nat) : List Tag :=
  match p.instances[n]? with
  | some w => instanceTags w
  | none => []

/-- The nodes of the page's widget instances. -/
def nodes (p : Page) : List Node := p.instances.map (fun w => w.node)

/-- A page with the two widget instances of C2: `recordA` on the first, `recordB` on the
second, each on a node with a `selected_data` widget. -/
def twoWidgets : Page :=
  { instances := [mounted plainNode [recordA] "zh-CN", mounted plainNode [recordB] "zh-CN"]
    errors := [] }

end Web

namespace Web

end Web

/-- A response with status 200 whose body parses to `data`. -/
def okResponse (data : Catalog) : Settled Response := .resolved ⟨200, .ok data⟩

namespace Flat

/-- A freshly attached widget with an empty list and no request in flight. -/
def idle (node : Node) : Session :=
  { widget := { node := node, list := [], errors := [] }, cache := [], pending := [] }

/-- A widget showing `recordA` and `recordB`, no request in flight. -/
def showingAB : Session :=
  { widget := rendered plainNode [recordA, recordB] "zh-CN"
    cache := [recordA, recordB]
    pending := [] }

/-- The tag of `recordA` is selected, then a search is typed whose fetch returns the same
two records. -/
def selectThenSearch : List Event :=
  [.click 0, .input "a", .settle 0 (okResponse [recordA, recordB])]

/-- The english name and the mark of every tag of the list. -/
def marks (σ : Session) : List (String × Bool) :=
  σ.widget.list.map (fun t => (t.englishName, t.selected))

end Flat

namespace Web

/-- No record of the catalog has, as its anime key, a property name that `groups` inherits. -/
def noInheritedKey (language : String) (characters : Catalog) : Bool :=
  characters.all (fun c => !objectPrototypeKeys.contains (animeKey language c))

/-- The `forEach` callback of `groupCharactersByAnime` on a key that is not inherited. -/
def addCharacterOwn (language : String) (groups : List (String × Group))
    (character : CharacterRecord) : List (String × Group) :=
  if groups.any (fun p => decide (p.1 = animeKey language character)) then
    pushCharacter (animeKey language character) character groups
  else
    pushCharacter (animeKey language character) character
      (groups ++ [(animeKey language character,
        { anime_chinese_name := character.anime_chinese_name
          anime_english_name := character.anime_english_name
          characters := [] })])

/-- The name `getGroupedCharacterList` shows for a group. -/
def displayName (language : String) (group : Group) : String :=
  if language = "zh-CN" then group.anime_chinese_name else group.anime_english_name

/-- What holds of `groups` after the records `seen` have been processed. -/
structure Grouped (language : String) (seen : Catalog) (groups : List (String × Group)) :
    Prop where
  nodup : (groups.map (fun p => p.1)).Nodup
  perm : (groups.flatMap (fun p => p.2.characters)).Perm seen
  complete : ∀ c ∈ seen, animeKey language c ∈ groups.map (fun p => p.1)
  content : ∀ p ∈ groups,
    p.2.characters = seen.filter (fun c => decide (animeKey language c = p.1))
      ∧ displayName language p.2 = p.1 ∧ p.2.characters ≠ []

/-- The own properties of `groups` once every record of a catalog without inherited keys
has been processed. -/
def ownGroups (language : String) (characters : Catalog) : List (String × Group) :=
  characters.foldl (addCharacterOwn language) []

/-- The records of the catalog whose anime key is `key`, in catalog order. -/
def charactersOf (language : String) (characters : Catalog) (key : String) : Catalog :=
  characters.filter (fun c => decide (animeKey language c = key))

/-- The group element expected for `key`: its header shows the key and the number of the
catalog's records with that key, its container holds their tags in catalog order. -/
def groupElementOf (language : String) (characters : Catalog) (key : String) : GroupElement :=
  { arrow := "▼"
    headerText := headerText key (charactersOf language characters key).length
    collapsed := false
    tags := (charactersOf language characters key).map
      (fun character => createCharacterTag character language) }

/-- The position in a tag list of the first tag whose english name is `key`. -/
def indexOfKey (key : String) : List Tag → Option Nat
  | [] => none
  | t :: ts => if t.englishName = key then some 0 else (indexOfKey key ts).map (fun i => i + 1)

/-- The group and the position in it of the first tag whose english name is `key`. -/
def positionOf (key : String) : List GroupElement → Option (Nat × Nat)
  | [] => none
  | ge :: rest =>
    match indexOfKey key ge.tags with
    | some i => some (0, i)
    | none => (positionOf key rest).map (fun q => (q.1 + 1, q.2))

/-- The operation `toggle(identityKey)` on widget instance `n`: one click on the tag that
carries the key; without such a tag there is nothing to click. -/
def toggleKey (n : Nat) (p : Page) (key : String) : Page :=
  match p.instances[n]?.bind (fun w => positionOf key w.list) with
  | some (g, i) => tagOnclick p n g i
  | none => p

/-- A page whose only widget shows `characters` in `language`, no tag selected. -/
def soleWidget (node : Node) (characters : Catalog) (language : String) : Page :=
  { instances := [mounted node characters language], errors := [] }

/-- The records of the catalog in the order in which their tags are rendered: group after
group in the order of `sort()`, catalog order inside a group. -/
def renderOrder (language : String) (characters : Catalog) : Catalog :=
  (sortedAnimes (ownGroups language characters)).flatMap (charactersOf language characters)

/-- The descriptor published for a record: its six fields, under fixed property names. -/
def recordDescriptor (c : CharacterRecord) : String :=
  "\x7b" ++ quoteJSONString "character_english_name" ++ ":"
    ++ quoteJSONString c.character_english_name
    ++ "," ++ quoteJSONString "character_chinese_name" ++ ":"
    ++ quoteJSONString c.character_chinese_name
    ++ "," ++ quoteJSONString "anime_english_name" ++ ":" ++ quoteJSONString c.anime_english_name
    ++ "," ++ quoteJSONString "anime_chinese_name" ++ ":" ++ quoteJSONString c.anime_chinese_name
    ++ "," ++ quoteJSONString "gender" ++ ":" ++ quoteJSONString c.gender
    ++ "," ++ quoteJSONString "role" ++ ":" ++ quoteJSONString c.role ++ "\x7d"

/-- The records toggled an odd number of times, out of `records`, in that order. -/
def oddRecords (keys : List String) (records : Catalog) : Catalog :=
  records.filter (fun c => decide (keys.count c.character_english_name % 2 = 1))

/-- A fresh tag of record `c` after the toggles `keys`. -/
def toggledTag (language : String) (keys : List String) (c : CharacterRecord) : Tag :=
  { createCharacterTag c language with
    selected := decide (keys.count c.character_english_name % 2 = 1)
    checked := decide (keys.count c.character_english_name % 2 = 1) }

/-- A series of `toggle(identityKey)` operations on widget instance `n`. -/
def toggleKeys (n : Nat) (p : Page) (keys : List String) : Page :=
  keys.foldl (toggleKey n) p

end Web

/-- A record whose anime name, in both languages, is `constructor`. -/
def recordC : CharacterRecord := ⟨"C", "丙", "constructor", "constructor", "F", "lead"⟩

end AnimeNameHelper

/-! ## Theorems -/

namespace AnimeNameHelper

theorem findSelectedData_writeSelectedData (v : String) (ws : List Widget) (w : Widget)
    (h : findSelectedData ws = some w) :
    findSelectedData (writeSelectedData v ws) = some { w with value := v } := by
  induction ws with
  | nil => simp [findSelectedData] at h
  | cons a as ih =>
    unfold findSelectedData at h ih ⊢
    by_cases ha : a.name = "selected_data"
    · simp [writeSelectedData, ha, List.find?_cons] at h ⊢
      rw [← h, ha]
    · simp [writeSelectedData, ha, List.find?_cons] at h ⊢
      exact ih h

theorem updateAt_enumFrom_map {α β : Type} (f : β → β) (F : Nat × α → β) (l : List α)
    (k i : Nat) :
    updateAt f ((l.enumFrom k).map F) i
      = (l.enumFrom k).map (fun p => if p.1 = k + i then f (F p) else F p) := by
  induction l generalizing k i with
  | nil => rfl
  | cons a as ih =>
    cases i with
    | zero =>
      simp only [List.enumFrom_cons, List.map_cons, updateAt, Nat.add_zero, if_true]
      congr 1
      apply List.map_congr_left
      intro p hp
      have := List.le_fst_of_mem_enumFrom hp
      have hne : p.1 ≠ k := by omega
      simp [hne]
    | succ i =>
      have hk : ¬ k = k + (i + 1) := by omega
      simp only [List.enumFrom_cons, List.map_cons, updateAt, hk, if_false]
      congr 1
      rw [ih]
      apply List.map_congr_left
      intro p _
      have : k + 1 + i = k + (i + 1) := by omega
      rw [this]

namespace Flat

theorem tagOnclick_list (s : State) (i : Nat) :
    (tagOnclick s i).list = updateAt toggleTag s.list i := by
  unfold tagOnclick
  cases findSelectedData s.node.widgets <;> rfl

theorem toggleTag_clickedTag (language : String) (clicks : List Nat) (i : Nat)
    (p : Nat × CharacterRecord) :
    (if p.1 = i then toggleTag (clickedTag language clicks p) else clickedTag language clicks p)
      = clickedTag language (clicks ++ [i]) p := by
  by_cases h : p.1 = i
  · subst h
    rcases Nat.mod_two_eq_zero_or_one (clicks.count p.1) with h0 | h1
    · have : (clicks.count p.1 + 1) % 2 = 1 := by omega
      simp [toggleTag, clickedTag, oddClicks, List.count_append, this, h0]
    · have : ¬ (clicks.count p.1 + 1) % 2 = 1 := by omega
      simp [toggleTag, clickedTag, oddClicks, List.count_append, this, h1]
  · have h2 : ¬ i = p.1 := fun e => h e.symm
    simp [clickedTag, oddClicks, List.count_append, List.count_singleton, h, h2]

theorem foldl_tagOnclick_list (node : Node) (characters : Catalog) (language : String)
    (clicks : List Nat) :
    (clicks.foldl tagOnclick (rendered node characters language)).list
      = characters.enum.map (clickedTag language clicks) := by
  induction clicks using List.reverseRecOn with
  | nil =>
    simp [rendered, getCharacterTagList, List.mapIdx_eq_enum_map, clickedTag, oddClicks,
      createTag]
  | append_singleton clicks i ih =>
    rw [List.foldl_append, List.foldl_cons, List.foldl_nil, tagOnclick_list, ih, List.enum,
      updateAt_enumFrom_map]
    apply List.map_congr_left
    intro p _
    rw [Nat.zero_add]
    exact toggleTag_clickedTag language clicks i p

theorem selectedNames_clicked (characters : Catalog) (language : String) (clicks : List Nat) :
    selectedNames (characters.enum.map (clickedTag language clicks))
      = oddNames characters clicks := by
  simp only [selectedNames, oddNames, List.filter_map, List.map_map]
  rfl

theorem tagOnclick_value (s : State) (i : Nat) (h : findSelectedData s.node.widgets ≠ none) :
    selectedDataValue (tagOnclick s i).node
      = some (stringifyNames (selectedNames (tagOnclick s i).list)) := by
  rw [tagOnclick_list]
  unfold tagOnclick selectedDataValue
  cases hw : findSelectedData s.node.widgets with
  | none => exact absurd hw h
  | some w => simp [findSelectedData_writeSelectedData _ _ _ hw]

end Flat

theorem cacheAfter_eq_lastSuccessful (calls : List (FetchApi × String × String))
    (cache : Catalog) :
    cacheAfter calls cache = (lastSuccessful calls).getD cache := by
  induction calls generalizing cache with
  | nil => rfl
  | cons call calls ih =>
    have hstep : cacheAfter (call :: calls) cache
        = cacheAfter calls (getAnimeCharacters call.1 cache call.2.1 call.2.2).2 := rfl
    rw [hstep, ih]
    simp only [lastSuccessful]
    cases lastSuccessful calls with
    | some data => rfl
    | none =>
      unfold getAnimeCharacters
      cases call.1 (requestUrl call.2.1 call.2.2) with
      | rejected e => rfl
      | resolved resp =>
        by_cases hs : resp.status = 200
        · simp only [hs, if_true]
          cases resp.json <;> rfl
        · simp only [hs, if_false]

/-- C4. For every query and filter: a response whose status is not 200 makes
`getAnimeCharacters` resolve to the empty array and leaves `anime_characters_cache` as it
was; a response with status 200 makes it resolve to the parsed body, unchanged and
unsorted, and stores that same array in the cache.  Hence after any series of calls
the cache holds the data of the last successful one (its initial value if there was none). -/
theorem getAnimeCharacters_status (fetchApi : FetchApi) (cache : Catalog)
    (query filter : String) (resp : Response)
    (hresp : fetchApi (requestUrl query filter) = .resolved resp) :
    (resp.status ≠ 200 →
        getAnimeCharacters fetchApi cache query filter = (.resolved [], cache))
      ∧ (∀ data, resp.status = 200 → resp.json = .ok data →
        getAnimeCharacters fetchApi cache query filter = (.resolved data, data))
      ∧ ∀ calls : List (FetchApi × String × String),
        cacheAfter calls cache = (lastSuccessful calls).getD cache := by
  refine ⟨?_, ?_, fun calls => cacheAfter_eq_lastSuccessful calls cache⟩
  · intro hs
    simp [getAnimeCharacters, hresp, hs]
  · intro data hs hj
    simp [getAnimeCharacters, hresp, hs, hj]

/-- Witness for C4: a 404 after a cached result keeps the cache and yields the empty array. -/
theorem getAnimeCharacters_status_witness :
    getAnimeCharacters (constantApi (.resolved ⟨404, .ok [recordB]⟩)) [recordA] "q" ""
      = (.resolved [], [recordA]) :=
  (getAnimeCharacters_status (constantApi (.resolved ⟨404, .ok [recordB]⟩)) [recordA] "q" ""
    ⟨404, .ok [recordB]⟩ rfl).1 (by decide)

/-- Counterexample for C5: when the transport call is rejected, and likewise when a
status-200 body cannot be parsed, the promise of `getAnimeCharacters` is rejected; it does
not resolve to the empty array. -/
theorem getAnimeCharacters_rejects :
    (¬ ∀ (fetchApi : FetchApi) (cache : Catalog) (query filter : String),
        (∃ e, fetchApi (requestUrl query filter) = .rejected e) →
        (getAnimeCharacters fetchApi cache query filter).1 = .resolved [])
      ∧ ¬ ∀ (fetchApi : FetchApi) (cache : Catalog) (query filter : String),
        (∃ e, fetchApi (requestUrl query filter) = .resolved ⟨200, .error e⟩) →
        (getAnimeCharacters fetchApi cache query filter).1 = .resolved [] := by
  constructor
  · intro h
    have h1 := h (constantApi (.rejected "NetworkError")) [] "q" "" ⟨_, rfl⟩
    simp [getAnimeCharacters, constantApi] at h1
  · intro h
    have h1 := h (constantApi (.resolved ⟨200, .error "SyntaxError"⟩)) [] "q" "" ⟨_, rfl⟩
    simp [getAnimeCharacters, constantApi] at h1

/-- C5, amended. For every query and filter: when the transport call is rejected, or a
response with status 200 carries a body that cannot be parsed, the promise of
`getAnimeCharacters` is rejected with the same reason, and the cache is left as it was. -/
theorem getAnimeCharacters_failure (fetchApi : FetchApi) (cache : Catalog)
    (query filter : String) (e : String)
    (hfail : fetchApi (requestUrl query filter) = .rejected e
      ∨ ∃ resp, fetchApi (requestUrl query filter) = .resolved resp
          ∧ resp.status = 200 ∧ resp.json = .error e) :
    getAnimeCharacters fetchApi cache query filter = (.rejected e, cache) := by
  rcases hfail with h | ⟨resp, h, hs, hj⟩
  · simp [getAnimeCharacters, h]
  · simp [getAnimeCharacters, h, hs, hj]

/-- Witness for C5, amended: a status-200 response with an unparsable body. -/
theorem getAnimeCharacters_failure_witness :
    getAnimeCharacters (constantApi (.resolved ⟨200, .error "SyntaxError"⟩)) [recordA] "q" ""
      = (.rejected "SyntaxError", [recordA]) :=
  getAnimeCharacters_failure (constantApi (.resolved ⟨200, .error "SyntaxError"⟩)) [recordA]
    "q" "" "SyntaxError" (Or.inr ⟨⟨200, .error "SyntaxError"⟩, rfl, rfl, rfl⟩)

/-! ### Lists with one updated position -/

theorem updateAt_getElem?_eq {α : Type} (f : α → α) (l : List α) (n : Nat) :
    (updateAt f l n)[n]? = l[n]?.map f := by
  induction l generalizing n with
  | nil => rfl
  | cons a as ih => cases n <;> simp [updateAt, ih]

theorem updateAt_map_comm {α β : Type} (f : α → α) (F : α → β) (l : List α) (n : Nat)
    (h : ∀ a, F (f a) = F a) : (updateAt f l n).map F = l.map F := by
  induction l generalizing n with
  | nil => rfl
  | cons a as ih => cases n <;> simp [updateAt, ih, h]

/-! ### The grouped variant without a `selected_data` widget -/

namespace Web

end Web

namespace Flat

end Flat

/-- C2, the code at the failing input. Grouped variant, two widget instances on one page:
the tag of the second widget is clicked, then the tag of the first.  The value written to
the first node's `selected_data` holds the descriptor of the second widget's tag as well. -/
theorem web_selected_data_holds_foreign_tag :
    Web.publishedAt (Web.tagOnclick (Web.tagOnclick Web.twoWidgets 1 0 0) 0 0 0) 0
        = some (Web.stringifySelected
            [Web.toggleTag (Web.createCharacterTag recordA "zh-CN"),
             Web.toggleTag (Web.createCharacterTag recordB "zh-CN")])
      ∧ Web.toggleTag (Web.createCharacterTag recordB "zh-CN")
          ∉ Web.tagsAt (Web.tagOnclick (Web.tagOnclick Web.twoWidgets 1 0 0) 0 0 0) 0
      ∧ Web.toggleTag (Web.createCharacterTag recordB "zh-CN")
          ∈ Web.tagsAt (Web.tagOnclick (Web.tagOnclick Web.twoWidgets 1 0 0) 0 0 0) 1 := by
  decide

/-! ### Search requests that overlap -/

namespace Flat

theorem flat_step_settle (language : String) (σ : Session) (k : Nat)
    (outcome : Settled Response) (value : String) (hk : σ.pending[k]? = some value) :
    step language σ (.settle k outcome)
      = { widget := (oninputSettle (fun _ => outcome) language value (σ.widget, σ.cache)).1
          cache := (oninputSettle (fun _ => outcome) language value (σ.widget, σ.cache)).2
          pending := σ.pending.eraseIdx k } := by
  simp only [step, hk]

theorem flat_oninputSettle_resolved (fetchApi : FetchApi) (language value : String)
    (s : State × Catalog) (data : Catalog)
    (h : (getAnimeCharacters fetchApi s.2 value "").1 = .resolved data) :
    (oninputSettle fetchApi language value s).1
      = { s.1 with list := getCharacterTagList data language } := by
  unfold oninputSettle
  rcases hg : getAnimeCharacters fetchApi s.2 value "" with ⟨r, c⟩
  rw [hg] at h
  simp only at h
  subst h
  rfl

theorem flat_oninputSettle_rejected (fetchApi : FetchApi) (language value : String)
    (s : State × Catalog) (e : String)
    (h : (getAnimeCharacters fetchApi s.2 value "").1 = .rejected e) :
    (oninputSettle fetchApi language value s).1 = s.1 := by
  unfold oninputSettle
  rcases hg : getAnimeCharacters fetchApi s.2 value "" with ⟨r, c⟩
  rw [hg] at h
  simp only at h
  subst h
  rfl

end Flat

namespace Web

theorem web_step_settle (language : String) (σ : Session) (k : Nat)
    (outcome : Settled Response) (n : Nat) (value : String)
    (hk : σ.pending[k]? = some (n, value)) :
    step language σ (.settle k outcome)
      = { page := (oninputSettle (fun _ => outcome) language value n (σ.page, σ.cache)).1
          cache := (oninputSettle (fun _ => outcome) language value n (σ.page, σ.cache)).2
          pending := σ.pending.eraseIdx k } := by
  simp only [step, hk]

theorem web_oninputSettle_resolved (fetchApi : FetchApi) (language value : String) (n : Nat)
    (s : Page × Catalog) (data : Catalog)
    (h : (getAnimeCharacters fetchApi s.2 value "").1 = .resolved data) :
    (oninputSettle fetchApi language value n s).1
      = { s.1 with instances := updateAt (replaceList language data) s.1.instances n } := by
  unfold oninputSettle
  rcases hg : getAnimeCharacters fetchApi s.2 value "" with ⟨r, c⟩
  rw [hg] at h
  simp only at h
  subst h
  rfl

end Web

theorem filter_enumFrom_index {α : Type} (l : List α) (k i : Nat) :
    (l.enumFrom k).filter (fun p => decide (p.1 = k + i))
      = (l[i]?.map (fun a => (k + i, a))).toList := by
  induction l generalizing k i with
  | nil => rfl
  | cons a as ih =>
    cases i with
    | zero =>
      simp only [List.enumFrom_cons, Nat.add_zero, List.filter_cons, decide_True, if_true,
        List.getElem?_cons_zero, Option.map_some', Option.toList_some]
      congr 1
      rw [List.filter_eq_nil_iff]
      intro p hp
      have := List.le_fst_of_mem_enumFrom hp
      simp only [decide_eq_true_eq]
      omega
    | succ i =>
      have hk : ¬ k = k + (i + 1) := by omega
      simp only [List.enumFrom_cons, List.filter_cons, hk, decide_False, List.getElem?_cons_succ]
      have h2 := ih (k + 1) i
      have h3 : k + 1 + i = k + (i + 1) := by omega
      rw [h3] at h2
      simpa using h2

namespace Flat

theorem flat_oddNames_singleton (data : Catalog) (i : Nat) (c : CharacterRecord)
    (h : data[i]? = some c) : oddNames data [i] = [c.character_english_name] := by
  have hf : (fun p : Nat × CharacterRecord => oddClicks [i] p.1)
      = (fun p => decide (p.1 = 0 + i)) := by
    funext p
    by_cases hp : p.1 = i
    · simp [oddClicks, hp]
    · have hp2 : ¬ i = p.1 := fun e => hp e.symm
      simp [oddClicks, List.count_singleton, hp, hp2]
  unfold oddNames
  rw [hf, List.enum, filter_enumFrom_index, h]
  rfl

theorem flat_fresh_tags (data : Catalog) (language : String) :
    ∀ t ∈ getCharacterTagList data language, t.selected = false ∧ t.checked = false := by
  intro t ht
  simp only [getCharacterTagList, List.mapIdx_eq_enum_map, List.mem_map] at ht
  obtain ⟨p, _, rfl⟩ := ht
  exact ⟨rfl, rfl⟩

theorem flat_click_after_render (s : State) (data : Catalog) (language : String) (i : Nat)
    (c : CharacterRecord) (hl : s.list = getCharacterTagList data language)
    (hc : data[i]? = some c) (hw : findSelectedData s.node.widgets ≠ none) :
    selectedDataValue (tagOnclick s i).node
      = some (stringifyNames [c.character_english_name]) := by
  rw [tagOnclick_value s i hw, tagOnclick_list, hl]
  have h := foldl_tagOnclick_list s.node data language [i]
  simp only [List.foldl_cons, List.foldl_nil, tagOnclick_list, rendered] at h
  rw [h, selectedNames_clicked, flat_oddNames_singleton data i c hc]

end Flat

namespace Web

theorem web_fresh_tags (data : Catalog) (language : String) (w : Instance) :
    ∀ t ∈ instanceTags (replaceList language data w),
      t.selected = false ∧ t.checked = false := by
  intro t ht
  unfold replaceList getGroupedCharacterList at ht
  cases hg : groupCharactersByAnime data language with
  | error e => simp [hg, instanceTags] at ht
  | ok groups =>
    simp only [hg, instanceTags, List.mem_flatMap, List.mem_filterMap, Option.map_eq_some']
      at ht
    obtain ⟨ge, ⟨key, _, group, _, rfl⟩, htag⟩ := ht
    simp only [createGroupElement, List.mem_map] at htag
    obtain ⟨c, _, rfl⟩ := htag
    exact ⟨rfl, rfl⟩

end Web

/-- Counterexample for C9. Flat variant: the tag of `recordA` is selected, then a search
re-renders the list with a catalog that still holds `recordA`.  After the re-render the tag
is not selected, and the next toggle (of `recordB`) publishes `["B"]`, without `"A"`. -/
theorem flat_rerender_drops_selection :
    Flat.marks (Flat.run "zh-CN" Flat.showingAB [.click 0, .input "a"])
        = [("A", true), ("B", false)]
      ∧ Flat.marks (Flat.run "zh-CN" Flat.showingAB Flat.selectThenSearch)
        = [("A", false), ("B", false)]
      ∧ selectedDataValue
          (Flat.run "zh-CN" Flat.showingAB (Flat.selectThenSearch ++ [.click 1])).widget.node
        = some (stringifyNames ["B"]) := by
  decide

/-- C9, amended. When the fetch of a search settles and `getAnimeCharacters` resolves to
`data`, the list of the widget is rebuilt from fresh tags: no tag of the re-rendered widget
is selected or checked, whatever was selected before, and the re-render itself leaves every
node, so every `selected_data`, as it was.  In the flat variant the next toggle then
publishes the toggled record's english name alone. -/
theorem rerender_resets_selection (language : String) (k : Nat) (outcome : Settled Response)
    (value : String) (data : Catalog) :
    (∀ σ : Flat.Session, σ.pending[k]? = some value →
        (getAnimeCharacters (fun _ => outcome) σ.cache value "").1 = .resolved data →
        (∀ t ∈ (Flat.step language σ (.settle k outcome)).widget.list,
            t.selected = false ∧ t.checked = false)
          ∧ (Flat.step language σ (.settle k outcome)).widget.node = σ.widget.node
          ∧ ∀ i c, data[i]? = some c → findSelectedData σ.widget.node.widgets ≠ none →
              selectedDataValue
                  (Flat.step language (Flat.step language σ (.settle k outcome))
                    (.click i)).widget.node
                = some (stringifyNames [c.character_english_name]))
      ∧ ∀ (σ : Web.Session) (n : Nat), σ.pending[k]? = some (n, value) →
        (getAnimeCharacters (fun _ => outcome) σ.cache value "").1 = .resolved data →
        (∀ t ∈ Web.tagsAt (Web.step language σ (.settle k outcome)).page n,
            t.selected = false ∧ t.checked = false)
          ∧ Web.nodes (Web.step language σ (.settle k outcome)).page = Web.nodes σ.page := by
  constructor
  · intro σ hk hd
    rw [Flat.flat_step_settle language σ k outcome value hk]
    simp only [Flat.flat_oninputSettle_resolved (fun _ => outcome) language value
      (σ.widget, σ.cache) data hd]
    refine ⟨Flat.flat_fresh_tags data language, trivial, ?_⟩
    intro i c hc hw
    exact Flat.flat_click_after_render _ data language i c rfl hc hw
  · intro σ n hk hd
    rw [Web.web_step_settle language σ k outcome n value hk]
    simp only [Web.web_oninputSettle_resolved (fun _ => outcome) language value n
      (σ.page, σ.cache) data hd]
    constructor
    · intro t ht
      unfold Web.tagsAt at ht
      simp only [updateAt_getElem?_eq] at ht
      cases hw : σ.page.instances[n]? with
      | none => simp [hw] at ht
      | some w =>
        simp only [hw, Option.map_some'] at ht
        exact Web.web_fresh_tags data language w t ht
    · unfold Web.nodes
      apply updateAt_map_comm
      intro w
      unfold Web.replaceList
      split <;> rfl

/-- Witness for C9, amended: the run of the counterexample. -/
theorem rerender_resets_selection_witness :
    (Flat.step "zh-CN" (Flat.run "zh-CN" Flat.showingAB [.click 0, .input "a"])
        (.settle 0 (okResponse [recordA, recordB]))).widget.node
      = (Flat.run "zh-CN" Flat.showingAB [.click 0, .input "a"]).widget.node :=
  ((rerender_resets_selection "zh-CN" 0 (okResponse [recordA, recordB]) "a"
      [recordA, recordB]).1
    (Flat.run "zh-CN" Flat.showingAB [.click 0, .input "a"]) (by decide) (by decide)).2.1

/-! ### Grouping -/

namespace Web

theorem web_foldlM_addCharacter (language : String) (characters : Catalog)
    (groups : List (String × Group)) (h : noInheritedKey language characters = true) :
    characters.foldlM (addCharacter language) groups
      = .ok (characters.foldl (addCharacterOwn language) groups) := by
  induction characters generalizing groups with
  | nil => rfl
  | cons c cs ih =>
    simp only [noInheritedKey, List.all_cons, Bool.and_eq_true, Bool.not_eq_true'] at h
    have hstep : addCharacter language groups c = .ok (addCharacterOwn language groups c) := by
      unfold addCharacter addCharacterOwn
      by_cases hany : groups.any (fun p => decide (p.1 = animeKey language c)) = true
      · simp only [hany, if_true]
      · simp only [hany, h.1]
        rfl
    rw [List.foldlM_cons, hstep, List.foldl_cons]
    exact ih _ (by simpa [noInheritedKey] using h.2)

theorem web_pushCharacter_keys (key : String) (c : CharacterRecord)
    (groups : List (String × Group)) :
    (pushCharacter key c groups).map (fun p => p.1) = groups.map (fun p => p.1) := by
  induction groups with
  | nil => rfl
  | cons p rest ih =>
    rcases p with ⟨k, g⟩
    unfold pushCharacter
    split
    · rfl
    · simp [ih]

theorem web_pushCharacter_perm (key : String) (c : CharacterRecord)
    (groups : List (String × Group)) (h : key ∈ groups.map (fun p => p.1)) :
    ((pushCharacter key c groups).flatMap (fun p => p.2.characters)).Perm
      (c :: groups.flatMap (fun p => p.2.characters)) := by
  induction groups with
  | nil => simp at h
  | cons p rest ih =>
    rcases p with ⟨k, g⟩
    unfold pushCharacter
    split
    · simp only [List.flatMap_cons, List.append_assoc, List.singleton_append]
      exact List.perm_middle
    · rename_i hk
      have hrest : key ∈ rest.map (fun p => p.1) := by
        simp only [List.map_cons, List.mem_cons] at h
        rcases h with h | h
        · exact absurd h.symm hk
        · exact h
      simp only [List.flatMap_cons]
      exact ((ih hrest).append_left g.characters).trans List.perm_middle

theorem web_pushCharacter_eq_map (key : String) (c : CharacterRecord)
    (groups : List (String × Group)) (h : (groups.map (fun p => p.1)).Nodup) :
    pushCharacter key c groups = groups.map (fun p =>
      if p.1 = key then (p.1, { p.2 with characters := p.2.characters ++ [c] }) else p) := by
  induction groups with
  | nil => rfl
  | cons p rest ih =>
    rcases p with ⟨k, g⟩
    simp only [List.map_cons, List.nodup_cons] at h
    unfold pushCharacter
    by_cases hk : k = key
    · subst hk
      simp only [if_true, List.map_cons]
      congr 1
      have hid : rest.map (fun p =>
          if p.1 = k then (p.1, { p.2 with characters := p.2.characters ++ [c] }) else p)
          = rest.map id := by
        apply List.map_congr_left
        intro q hq
        have hne : ¬ q.1 = k := fun e => h.1 (e ▸ List.mem_map_of_mem (fun p => p.1) hq)
        simp [hne]
      rw [hid, List.map_id]
    · simp only [hk, if_false, List.map_cons]
      rw [ih h.2]

theorem web_pushCharacter_new (key : String) (c : CharacterRecord)
    (groups : List (String × Group)) (g : Group) (h : key ∉ groups.map (fun p => p.1)) :
    pushCharacter key c (groups ++ [(key, g)])
      = groups ++ [(key, { g with characters := g.characters ++ [c] })] := by
  induction groups with
  | nil => simp [pushCharacter]
  | cons p rest ih =>
    rcases p with ⟨k, g0⟩
    simp only [List.map_cons, List.mem_cons, not_or] at h
    have hk : ¬ k = key := fun e => h.1 e.symm
    simp [pushCharacter, hk, ih h.2]

theorem web_any_key_iff (key : String) (groups : List (String × Group)) :
    groups.any (fun p => decide (p.1 = key)) = true ↔ key ∈ groups.map (fun p => p.1) := by
  simp only [List.any_eq_true, decide_eq_true_eq, List.mem_map]

theorem filter_append_singleton_pos {α : Type} (p : α → Bool) (l : List α) (a : α)
    (h : p a = true) : (l ++ [a]).filter p = l.filter p ++ [a] := by
  simp [List.filter_append, List.filter_cons, h]

theorem filter_append_singleton_neg {α : Type} (p : α → Bool) (l : List α) (a : α)
    (h : p a = false) : (l ++ [a]).filter p = l.filter p := by
  simp [List.filter_append, List.filter_cons, h]

theorem web_grouped_step (language : String) (seen : Catalog)
    (groups : List (String × Group)) (c : CharacterRecord)
    (h : Grouped language seen groups) :
    Grouped language (seen ++ [c]) (addCharacterOwn language groups c) := by
  unfold addCharacterOwn
  by_cases hany : groups.any (fun p => decide (p.1 = animeKey language c)) = true
  · have hmem := (web_any_key_iff _ _).mp hany
    simp only [hany, if_true]
    refine ⟨?_, ?_, ?_, ?_⟩
    · rw [web_pushCharacter_keys]
      exact h.nodup
    · exact ((web_pushCharacter_perm _ c groups hmem).trans (h.perm.cons c)).trans
        (List.perm_append_singleton c seen).symm
    · intro d hd
      rw [web_pushCharacter_keys]
      rcases List.mem_append.mp hd with hd | hd
      · exact h.complete d hd
      · rw [List.mem_singleton.mp hd]
        exact hmem
    · intro p hp
      rw [web_pushCharacter_eq_map _ _ _ h.nodup, List.mem_map] at hp
      obtain ⟨q, hq, rfl⟩ := hp
      obtain ⟨hc1, hc2, hc3⟩ := h.content q hq
      by_cases hk : q.1 = animeKey language c
      · simp only [hk, if_true]
        rw [filter_append_singleton_pos _ _ _ (by simp)]
        refine ⟨?_, ?_, by simp⟩
        · rw [hc1, hk]
        · rw [← hk]
          exact hc2
      · have hk2 : ¬ animeKey language c = q.1 := fun e => hk e.symm
        simp only [hk, if_false]
        rw [filter_append_singleton_neg _ _ _ (by simp [hk2])]
        exact ⟨hc1, hc2, hc3⟩
  · have hmem : animeKey language c ∉ groups.map (fun p => p.1) :=
      fun e => hany ((web_any_key_iff _ _).mpr e)
    rw [if_neg hany, web_pushCharacter_new _ _ _ _ hmem]
    refine ⟨?_, ?_, ?_, ?_⟩
    · simp only [List.map_append, List.map_cons, List.map_nil]
      refine List.Nodup.append h.nodup (List.nodup_singleton _) ?_
      intro a ha hb
      rw [List.mem_singleton.mp hb] at ha
      exact hmem ha
    · simp only [List.flatMap_append, List.flatMap_cons, List.flatMap_nil, List.nil_append,
        List.append_nil]
      exact h.perm.append_right [c]
    · intro d hd
      simp only [List.map_append, List.map_cons, List.map_nil, List.mem_append,
        List.mem_singleton]
      rcases List.mem_append.mp hd with hd | hd
      · exact Or.inl (h.complete d hd)
      · rw [List.mem_singleton.mp hd]
        exact Or.inr rfl
    · intro p hp
      rcases List.mem_append.mp hp with hp | hp
      · obtain ⟨hc1, hc2, hc3⟩ := h.content p hp
        have hk2 : ¬ animeKey language c = p.1 :=
          fun e => hmem (e ▸ List.mem_map_of_mem (fun p => p.1) hp)
        rw [filter_append_singleton_neg _ _ _ (by simp [hk2])]
        exact ⟨hc1, hc2, hc3⟩
      · rw [List.mem_singleton.mp hp]
        have hnil : seen.filter (fun d => decide (animeKey language d = animeKey language c))
            = [] := by
          rw [List.filter_eq_nil_iff]
          intro d hd hkey
          exact hmem ((of_decide_eq_true hkey) ▸ h.complete d hd)
        simp only
        rw [filter_append_singleton_pos _ _ _ (by simp), hnil]
        refine ⟨rfl, ?_, by simp⟩
        unfold displayName animeKey
        split <;> rfl

theorem web_grouped_foldl (language : String) (seen rest : Catalog)
    (groups : List (String × Group)) (h : Grouped language seen groups) :
    Grouped language (seen ++ rest) (rest.foldl (addCharacterOwn language) groups) := by
  induction rest generalizing seen groups with
  | nil => simpa using h
  | cons c cs ih =>
    have := ih (seen ++ [c]) _ (web_grouped_step language seen groups c h)
    simpa using this

theorem web_grouped (language : String) (characters : Catalog) :
    Grouped language characters (characters.foldl (addCharacterOwn language) []) := by
  have h0 : Grouped language [] [] :=
    ⟨List.nodup_nil, List.Perm.refl _, by simp, by simp⟩
  simpa using web_grouped_foldl language [] characters [] h0

theorem web_lookup_of_mem (groups : List (String × Group))
    (hnd : (groups.map (fun p => p.1)).Nodup) (k : String) (g : Group)
    (h : (k, g) ∈ groups) : groups.lookup k = some g := by
  induction groups with
  | nil => simp at h
  | cons p rest ih =>
    rcases p with ⟨k0, g0⟩
    simp only [List.map_cons, List.nodup_cons] at hnd
    rcases List.mem_cons.mp h with hhead | htail
    · injection hhead with h1 h2
      subst h1 h2
      simp [List.lookup_cons]
    · have hne : ¬ k = k0 := by
        intro e
        subst e
        exact hnd.1 (List.mem_map_of_mem (fun p => p.1) htail)
      have hbeq : (k == k0) = false := by simpa using hne
      rw [List.lookup_cons, hbeq]
      exact ih hnd.2 htail

theorem web_getGroupedCharacterList_ok (language : String) (characters : Catalog)
    (h : noInheritedKey language characters = true) :
    getGroupedCharacterList characters language
      = .ok ((sortedAnimes (ownGroups language characters)).map
          (groupElementOf language characters)) := by
  have hG := web_grouped language characters
  unfold getGroupedCharacterList groupCharactersByAnime
  rw [web_foldlM_addCharacter language characters [] h]
  simp only
  congr 1
  rw [← List.filterMap_eq_map]
  apply List.filterMap_congr
  intro key hkey
  have hmem : key ∈ (ownGroups language characters).map (fun p => p.1) :=
    (List.perm_insertionSort sortCompareLe _).mem_iff.mp hkey
  obtain ⟨p, hp, hpk⟩ := List.mem_map.mp hmem
  rcases p with ⟨k, g⟩
  simp only at hpk
  subst hpk
  have hl := web_lookup_of_mem _ hG.nodup k g hp
  obtain ⟨hc1, hc2, _⟩ := hG.content (k, g) hp
  simp only at hc1 hc2
  unfold ownGroups at hl
  rw [hl]
  simp only [Option.map_some', Function.comp_apply, Option.some.injEq]
  unfold createGroupElement groupElementOf charactersOf
  unfold displayName at hc2
  simp only [hc2, hc1]

theorem web_sortedAnimes_perm (language : String) (characters : Catalog) :
    (sortedAnimes (ownGroups language characters)).Perm
      ((ownGroups language characters).map (fun p => p.1)) :=
  List.perm_insertionSort sortCompareLe _

theorem web_mem_sortedAnimes (language : String) (characters : Catalog) (key : String) :
    key ∈ sortedAnimes (ownGroups language characters)
      ↔ ∃ c ∈ characters, animeKey language c = key := by
  have hG := web_grouped language characters
  rw [(web_sortedAnimes_perm language characters).mem_iff]
  constructor
  · intro hkey
    obtain ⟨p, hp, hpk⟩ := List.mem_map.mp hkey
    obtain ⟨hc1, _, hc3⟩ := hG.content p hp
    rw [hc1] at hc3
    obtain ⟨c, hc⟩ := List.exists_mem_of_ne_nil _ hc3
    rw [List.mem_filter] at hc
    exact ⟨c, hc.1, by rw [← hpk]; exact of_decide_eq_true hc.2⟩
  · rintro ⟨c, hc, rfl⟩
    exact hG.complete c hc

theorem web_sortedAnimes_nodup (language : String) (characters : Catalog) :
    (sortedAnimes (ownGroups language characters)).Nodup :=
  (web_sortedAnimes_perm language characters).nodup_iff.mpr
    (web_grouped language characters).nodup

theorem web_sortedAnimes_partition (language : String) (characters : Catalog) :
    ((sortedAnimes (ownGroups language characters)).flatMap
      (charactersOf language characters)).Perm characters := by
  have hG := web_grouped language characters
  have h1 := (web_sortedAnimes_perm language characters).flatMap_right
    (charactersOf language characters)
  refine h1.trans ?_
  have h2 : ((ownGroups language characters).map (fun p => p.1)).flatMap
      (charactersOf language characters)
      = (ownGroups language characters).flatMap (fun p => p.2.characters) := by
    rw [List.flatMap_map]
    apply List.flatMap_congr
    intro p hp
    exact (hG.content p hp).1.symm
  rw [h2]
  exact hG.perm

end Web

/-! ### The order of `sort()` -/

theorem utf16_head_inj (c d : Char) (r r2 : List Nat)
    (h : (if c.toNat < 65536 then [c.toNat]
          else [55296 + (c.toNat - 65536) / 1024, 56320 + (c.toNat - 65536) % 1024]) ++ r
      = (if d.toNat < 65536 then [d.toNat]
          else [55296 + (d.toNat - 65536) / 1024, 56320 + (d.toNat - 65536) % 1024]) ++ r2) :
    c = d ∧ r = r2 := by
  have hc : c.toNat < 55296 ∨ (57343 < c.toNat ∧ c.toNat < 1114112) := c.valid
  have hd : d.toNat < 55296 ∨ (57343 < d.toNat ∧ d.toNat < 1114112) := d.valid
  have hext : c.toNat = d.toNat → c = d := fun e =>
    Char.ext (UInt32.ext (by simpa [Char.toNat, UInt32.toNat] using e))
  by_cases h1 : c.toNat < 65536 <;> by_cases h2 : d.toNat < 65536
  · simp only [h1, h2, if_true, List.singleton_append, List.cons.injEq] at h
    exact ⟨hext h.1, h.2⟩
  · simp only [h1, h2, if_true, if_false, List.singleton_append, List.cons_append,
      List.nil_append, List.cons.injEq] at h
    omega
  · simp only [h1, h2, if_true, if_false, List.singleton_append, List.cons_append,
      List.nil_append, List.cons.injEq] at h
    omega
  · simp only [h1, h2, if_false, List.cons_append, List.nil_append, List.cons.injEq] at h
    exact ⟨hext (by omega), h.2.2⟩

theorem utf16Units_data_inj (s t : List Char)
    (h : s.flatMap (fun c =>
          if c.toNat < 65536 then [c.toNat]
          else [55296 + (c.toNat - 65536) / 1024, 56320 + (c.toNat - 65536) % 1024])
      = t.flatMap (fun c =>
          if c.toNat < 65536 then [c.toNat]
          else [55296 + (c.toNat - 65536) / 1024, 56320 + (c.toNat - 65536) % 1024])) :
    s = t := by
  induction s generalizing t with
  | nil =>
    cases t with
    | nil => rfl
    | cons d t =>
      simp only [List.flatMap_nil, List.flatMap_cons] at h
      by_cases h2 : d.toNat < 65536 <;> simp [h2] at h
  | cons c s ih =>
    cases t with
    | nil =>
      simp only [List.flatMap_nil, List.flatMap_cons] at h
      by_cases h1 : c.toNat < 65536 <;> simp [h1] at h
    | cons d t =>
      simp only [List.flatMap_cons] at h
      obtain ⟨hcd, hr⟩ := utf16_head_inj c d _ _ h
      rw [hcd, ih t hr]

theorem utf16Units_inj (x y : String) (h : Web.utf16Units x = Web.utf16Units y) : x = y := by
  have := utf16Units_data_inj x.data y.data h
  cases x
  cases y
  simp_all

theorem unitsLt_asymm (a b : List Nat) (h : Web.unitsLt a b = true) :
    Web.unitsLt b a = false := by
  induction a generalizing b with
  | nil => cases b <;> simp [Web.unitsLt] at h ⊢
  | cons x a ih =>
    cases b with
    | nil => simp [Web.unitsLt] at h
    | cons y b =>
      simp only [Web.unitsLt] at h ⊢
      by_cases hxy : x < y
      · have hyx : ¬ y < x := by omega
        simp [hxy, hyx]
      · by_cases hyx : y < x
        · simp [hxy, hyx] at h
        · simp only [hxy, hyx, if_false] at h ⊢
          exact ih b h

theorem unitsLt_connected (a b : List Nat) (h1 : Web.unitsLt a b = false)
    (h2 : Web.unitsLt b a = false) : a = b := by
  induction a generalizing b with
  | nil => cases b <;> simp [Web.unitsLt] at h1 ⊢
  | cons x a ih =>
    cases b with
    | nil => simp [Web.unitsLt] at h2
    | cons y b =>
      simp only [Web.unitsLt] at h1 h2
      by_cases hxy : x < y
      · simp [hxy] at h1
      · by_cases hyx : y < x
        · simp [hyx] at h2
        · simp only [hxy, hyx, if_false] at h1 h2
          have : x = y := by omega
          rw [this, ih b h1 h2]

theorem unitsLt_trans_le (a b c : List Nat) (h1 : Web.unitsLt b a = false)
    (h2 : Web.unitsLt c b = false) : Web.unitsLt c a = false := by
  induction a generalizing b c with
  | nil => cases c <;> rfl
  | cons x a ih =>
    cases b with
    | nil => simp [Web.unitsLt] at h1
    | cons y b =>
      cases c with
      | nil => simp [Web.unitsLt] at h2
      | cons z c =>
        simp only [Web.unitsLt] at h1 h2 ⊢
        by_cases hyx : y < x
        · simp [hyx] at h1
        · by_cases hzy : z < y
          · simp [hzy] at h2
          · have hzx : ¬ z < x := by omega
            by_cases hxz : x < z
            · simp [hzx, hxz]
            · have hxy : ¬ x < y := by omega
              have hyz : ¬ y < z := by omega
              simp only [hyx, hxy, hzy, hyz, if_false] at h1 h2
              simp only [hzx, hxz, if_false]
              exact ih b c h1 h2

namespace Web

theorem web_sortCompareLe_total (x y : String) : sortCompareLe x y ∨ sortCompareLe y x := by
  unfold sortCompareLe jsStringLt
  cases h : unitsLt (utf16Units y) (utf16Units x) with
  | false => exact Or.inl rfl
  | true => exact Or.inr (unitsLt_asymm _ _ h)

theorem web_sortCompareLe_trans (x y z : String) (hxy : sortCompareLe x y)
    (hyz : sortCompareLe y z) : sortCompareLe x z :=
  unitsLt_trans_le (utf16Units x) (utf16Units y) (utf16Units z) hxy hyz

theorem web_sortedAnimes_ascending (language : String) (characters : Catalog) :
    (sortedAnimes (ownGroups language characters)).Pairwise
      (fun x y => jsStringLt x y = true) := by
  have hs : List.Sorted sortCompareLe (sortedAnimes (ownGroups language characters)) :=
    @List.sorted_insertionSort String sortCompareLe _ ⟨web_sortCompareLe_total⟩
      ⟨web_sortCompareLe_trans⟩ _
  have hn := web_sortedAnimes_nodup language characters
  have hboth := List.Pairwise.and hs hn
  refine hboth.imp ?_
  intro x y hxy
  cases hlt : jsStringLt x y with
  | true => rfl
  | false => exact absurd (utf16Units_inj x y (unitsLt_connected _ _ hlt hxy.1)) hxy.2

end Web

/-! ### Toggling by identity key -/

namespace Web

theorem web_indexOfKey_none (key : String) (ts : List Tag) (h : indexOfKey key ts = none) :
    ∀ t ∈ ts, ¬ t.englishName = key := by
  induction ts with
  | nil => simp
  | cons t ts ih =>
    unfold indexOfKey at h
    by_cases ht : t.englishName = key
    · simp [ht] at h
    · simp only [ht, if_false, Option.map_eq_none'] at h
      intro u hu
      rcases List.mem_cons.mp hu with hu | hu
      · rw [hu]; exact ht
      · exact ih h u hu

theorem web_indexOfKey_some_mem (key : String) (ts : List Tag) (i : Nat)
    (h : indexOfKey key ts = some i) : key ∈ ts.map (fun t => t.englishName) := by
  by_contra hmem
  have hnone : indexOfKey key ts = none := by
    induction ts generalizing i with
    | nil => rfl
    | cons t ts ih =>
      simp only [List.map_cons, List.mem_cons, not_or] at hmem
      have ht : ¬ t.englishName = key := fun e => hmem.1 e.symm
      unfold indexOfKey at h ⊢
      simp only [ht, if_false, Option.map_eq_some'] at h ⊢
      obtain ⟨j, hj, _⟩ := h
      simp [ih j hj hmem.2]
  rw [hnone] at h
  exact Option.noConfusion h

theorem map_if_key_id (f : Tag → Tag) (key : String) (ts : List Tag)
    (h : ∀ t ∈ ts, ¬ t.englishName = key) :
    ts.map (fun t => if t.englishName = key then f t else t) = ts := by
  have : ts.map (fun t => if t.englishName = key then f t else t) = ts.map id := by
    apply List.map_congr_left
    intro t ht
    simp [h t ht]
  rw [this, List.map_id]

theorem web_updateAt_indexOfKey (f : Tag → Tag) (key : String) (ts : List Tag) (i : Nat)
    (hnd : (ts.map (fun t => t.englishName)).Nodup) (h : indexOfKey key ts = some i) :
    updateAt f ts i = ts.map (fun t => if t.englishName = key then f t else t) := by
  induction ts generalizing i with
  | nil => simp [indexOfKey] at h
  | cons t ts ih =>
    simp only [List.map_cons, List.nodup_cons] at hnd
    unfold indexOfKey at h
    by_cases ht : t.englishName = key
    · simp only [ht, if_true, Option.some.injEq] at h
      subst h
      simp only [updateAt, List.map_cons, ht, if_true]
      congr 1
      symm
      apply map_if_key_id
      intro u hu hk
      exact hnd.1 (by rw [ht, ← hk]; exact List.mem_map_of_mem (fun t => t.englishName) hu)
    · simp only [ht, if_false, Option.map_eq_some'] at h
      obtain ⟨j, hj, rfl⟩ := h
      simp only [updateAt, List.map_cons, ht, if_false]
      rw [ih j hnd.2 hj]

theorem web_positionOf_some (key : String) (l : List GroupElement)
    (h : key ∈ (l.flatMap (fun ge => ge.tags)).map (fun t => t.englishName)) :
    ∃ q, positionOf key l = some q := by
  induction l with
  | nil => simp at h
  | cons ge rest ih =>
    unfold positionOf
    cases hi : indexOfKey key ge.tags with
    | some i => exact ⟨_, rfl⟩
    | none =>
      have hno := web_indexOfKey_none key ge.tags hi
      simp only [List.flatMap_cons, List.map_append, List.mem_append] at h
      rcases h with h | h
      · obtain ⟨t, ht, hk⟩ := List.mem_map.mp h
        exact absurd hk (hno t ht)
      · obtain ⟨q, hq⟩ := ih h
        exact ⟨(q.1 + 1, q.2), by simp [hq]⟩

theorem web_updateAt_positionOf (f : Tag → Tag) (key : String) (l : List GroupElement)
    (g i : Nat)
    (hnd : ((l.flatMap (fun ge => ge.tags)).map (fun t => t.englishName)).Nodup)
    (h : positionOf key l = some (g, i)) :
    (updateAt (fun ge => { ge with tags := updateAt f ge.tags i }) l g).flatMap
        (fun ge => ge.tags)
      = (l.flatMap (fun ge => ge.tags)).map
          (fun t => if t.englishName = key then f t else t) := by
  induction l generalizing g with
  | nil => simp [positionOf] at h
  | cons ge rest ih =>
    simp only [List.flatMap_cons, List.map_append] at hnd ⊢
    obtain ⟨hnd1, hnd2, hdisj⟩ := List.nodup_append.mp hnd
    unfold positionOf at h
    cases hi : indexOfKey key ge.tags with
    | some j =>
      simp only [hi, Option.some.injEq, Prod.mk.injEq] at h
      obtain ⟨hg, hj⟩ := h
      subst hg hj
      simp only [updateAt, List.flatMap_cons]
      rw [web_updateAt_indexOfKey f key ge.tags j hnd1 hi]
      congr 1
      symm
      apply map_if_key_id
      intro u hu hk
      have h1 := web_indexOfKey_some_mem key ge.tags j hi
      have h2 : key ∈ (rest.flatMap (fun ge => ge.tags)).map (fun t => t.englishName) := by
        rw [← hk]
        exact List.mem_map_of_mem (fun t => t.englishName) hu
      exact hdisj h1 h2
    | none =>
      simp only [hi, Option.map_eq_some'] at h
      obtain ⟨q, hq, hq2⟩ := h
      rcases q with ⟨g2, i2⟩
      simp only [Prod.mk.injEq] at hq2
      obtain ⟨hg, hj⟩ := hq2
      subst hg hj
      simp only [updateAt, List.flatMap_cons]
      rw [ih g2 hnd2 hq, map_if_key_id f key ge.tags (web_indexOfKey_none key ge.tags hi)]

theorem web_toggleKey_sole (p : Page) (w : Instance) (key : String)
    (hp : p.instances = [w])
    (hkey : key ∈ (instanceTags w).map (fun t => t.englishName))
    (hnd : ((instanceTags w).map (fun t => t.englishName)).Nodup)
    (hw : findSelectedData w.node.widgets ≠ none) :
    ∃ w2, (toggleKey 0 p key).instances = [w2]
      ∧ instanceTags w2
          = (instanceTags w).map (fun t => if t.englishName = key then toggleTag t else t)
      ∧ findSelectedData w2.node.widgets ≠ none
      ∧ selectedDataValue w2.node
          = some (stringifySelected ((instanceTags w2).filter (fun t => t.selected))) := by
  obtain ⟨⟨g, i⟩, hq⟩ := web_positionOf_some key w.list hkey
  have hflat := web_updateAt_positionOf toggleTag key w.list g i hnd hq
  cases hf : findSelectedData w.node.widgets with
  | none => exact absurd hf hw
  | some v =>
    have hfind := findSelectedData_writeSelectedData
      (stringifySelected ((
        (updateAt (fun ge => { ge with tags := updateAt toggleTag ge.tags i }) w.list g).flatMap
          (fun ge => ge.tags)).filter (fun t => t.selected))) _ _ hf
    refine ⟨{ node := { widgets := writeSelectedData (stringifySelected ((
        (updateAt (fun ge => { ge with tags := updateAt toggleTag ge.tags i }) w.list g).flatMap
          (fun ge => ge.tags)).filter (fun t => t.selected))) w.node.widgets
                        dirtyCanvas := w.node.dirtyCanvas + 1 }
              list := updateAt (fun ge => { ge with tags := updateAt toggleTag ge.tags i })
                w.list g }, ?_, ?_, ?_, ?_⟩
    · simp [toggleKey, hp, hq, tagOnclick, updateTag, updateAt, hf, selectedTags,
        instanceTags]
    · exact hflat
    · simp only [hfind]
      exact Option.some_ne_none _
    · simp only [selectedDataValue, hfind, instanceTags, Option.map_some']

theorem web_renderOrder_perm (language : String) (characters : Catalog) :
    (renderOrder language characters).Perm characters :=
  web_sortedAnimes_partition language characters

theorem web_mounted_tags (node : Node) (characters : Catalog) (language : String)
    (hown : noInheritedKey language characters = true) :
    (mounted node characters language).node = node
      ∧ instanceTags (mounted node characters language)
        = (renderOrder language characters).map (toggledTag language []) := by
  unfold mounted replaceList
  rw [web_getGroupedCharacterList_ok language characters hown]
  refine ⟨rfl, ?_⟩
  simp only [instanceTags, renderOrder, List.flatMap_map, List.map_flatMap]
  rfl

theorem web_toggledTag_step (language : String) (keys : List String) (key : String)
    (c : CharacterRecord) :
    (if (toggledTag language keys c).englishName = key
        then toggleTag (toggledTag language keys c) else toggledTag language keys c)
      = toggledTag language (keys ++ [key]) c := by
  have hname : (toggledTag language keys c).englishName = c.character_english_name := rfl
  rw [hname]
  by_cases h : c.character_english_name = key
  · subst h
    rcases Nat.mod_two_eq_zero_or_one (keys.count c.character_english_name) with h0 | h1
    · have : (keys.count c.character_english_name + 1) % 2 = 1 := by omega
      simp [toggleTag, toggledTag, List.count_append, this, h0]
    · have : ¬ (keys.count c.character_english_name + 1) % 2 = 1 := by omega
      simp [toggleTag, toggledTag, List.count_append, this, h1]
  · have h2 : ¬ key = c.character_english_name := fun e => h e.symm
    simp [toggledTag, List.count_append, List.count_singleton, h, h2]

theorem web_toggleKeys_sole (node : Node) (characters : Catalog) (language : String)
    (keys : List String)
    (hdistinct : (characters.map (fun c => c.character_english_name)).Nodup)
    (hwidget : findSelectedData node.widgets ≠ none)
    (hkeys : ∀ k ∈ keys, k ∈ characters.map (fun c => c.character_english_name))
    (hown : noInheritedKey language characters = true) :
    ∃ w, (toggleKeys 0 (soleWidget node characters language) keys).instances = [w]
      ∧ instanceTags w = (renderOrder language characters).map (toggledTag language keys)
      ∧ findSelectedData w.node.widgets ≠ none
      ∧ (keys ≠ [] → selectedDataValue w.node
          = some (stringifySelected ((instanceTags w).filter (fun t => t.selected)))) := by
  have hnames : ∀ ks : List String,
      ((renderOrder language characters).map (toggledTag language ks)).map
          (fun t => t.englishName)
        = (renderOrder language characters).map (fun c => c.character_english_name) := by
    intro ks
    rw [List.map_map]
    rfl
  have hperm := (web_renderOrder_perm language characters).map
    (fun c => c.character_english_name)
  induction keys using List.reverseRecOn with
  | nil =>
    obtain ⟨hnode, htags⟩ := web_mounted_tags node characters language hown
    refine ⟨mounted node characters language, rfl, htags, ?_, fun h => absurd rfl h⟩
    rw [hnode]
    exact hwidget
  | append_singleton keys key ih =>
    obtain ⟨w, hw1, hw2, hw3, _⟩ := ih (fun k hk => hkeys k (List.mem_append_left _ hk))
    have hkey : key ∈ (instanceTags w).map (fun t => t.englishName) := by
      rw [hw2, hnames]
      exact hperm.mem_iff.mpr (hkeys key (by simp))
    have hnd : ((instanceTags w).map (fun t => t.englishName)).Nodup := by
      rw [hw2, hnames]
      exact hperm.nodup_iff.mpr hdistinct
    obtain ⟨w2, h1, h2, h3, h4⟩ := web_toggleKey_sole
      (toggleKeys 0 (soleWidget node characters language) keys) w key hw1 hkey hnd hw3
    refine ⟨w2, ?_, ?_, h3, fun _ => h4⟩
    · simp only [toggleKeys, List.foldl_append, List.foldl_cons, List.foldl_nil]
      exact h1
    · rw [h2, hw2, List.map_map]
      apply List.map_congr_left
      intro c _
      exact web_toggledTag_step language keys key c

theorem web_published_descriptors (node : Node) (characters : Catalog) (language : String)
    (keys : List String)
    (hdistinct : (characters.map (fun c => c.character_english_name)).Nodup)
    (hwidget : findSelectedData node.widgets ≠ none) (hne : keys ≠ [])
    (hkeys : ∀ k ∈ keys, k ∈ characters.map (fun c => c.character_english_name))
    (hown : noInheritedKey language characters = true) :
    publishedAt (toggleKeys 0 (soleWidget node characters language) keys) 0
      = some (stringifyArray
          ((oddRecords keys (renderOrder language characters)).map recordDescriptor)) := by
  obtain ⟨w, h1, h2, _, h4⟩ :=
    web_toggleKeys_sole node characters language keys hdistinct hwidget hkeys hown
  unfold publishedAt
  rw [h1]
  simp only [List.getElem?_cons_zero, Option.some_bind]
  rw [h4 hne, h2]
  simp only [stringifySelected, oddRecords, List.filter_map, List.map_map]
  rfl

end Web

/-! ### Grouped rendering and the display language -/

/-- C3, the code at the failing input. A catalog whose only record has the anime name
`constructor`: `groups["constructor"]` is the inherited `Object` function, so no group is
created, `groups["constructor"].characters` is `undefined` and `push` throws; no group list
is returned. -/
theorem web_grouping_throws_on_inherited_key :
    Web.getGroupedCharacterList [recordC] "zh-CN" = .error "TypeError"
      ∧ Web.getGroupedCharacterList [recordC] "en" = .error "TypeError"
      ∧ Web.getGroupedCharacterList [recordA, recordC, recordB] "en" = .error "TypeError" :=
  ⟨rfl, rfl, rfl⟩

/-- For a catalog none of whose anime keys is an inherited property name,
`getGroupedCharacterList` returns one group element per distinct anime key, in strictly
ascending order of the keys (by UTF-16 code units); the element of a key holds the tags of
the catalog's records with that key, in catalog order, its header shows the key and their
number, and the numbers add up to the length of the catalog. -/
theorem web_grouped_list_of_own_keys (characters : Catalog) (language : String)
    (hown : Web.noInheritedKey language characters = true) :
    ∃ keys : List String,
      Web.getGroupedCharacterList characters language
          = .ok (keys.map (Web.groupElementOf language characters))
        ∧ keys.Pairwise (fun x y => Web.jsStringLt x y = true)
        ∧ (∀ key, key ∈ keys ↔ ∃ c ∈ characters, Web.animeKey language c = key)
        ∧ (keys.map (fun key => (Web.charactersOf language characters key).length)).sum
            = characters.length := by
  refine ⟨Web.sortedAnimes (Web.ownGroups language characters),
    Web.web_getGroupedCharacterList_ok language characters hown,
    Web.web_sortedAnimes_ascending language characters,
    Web.web_mem_sortedAnimes language characters, ?_⟩
  have h := (Web.web_sortedAnimes_partition language characters).length_eq
  rw [List.length_flatMap] at h
  exact h

/-- The grouping theorem at the catalog of `recordA` and `recordB`, shown in `en`. -/
theorem web_grouped_list_of_own_keys_witness :
    ∃ keys : List String,
      Web.getGroupedCharacterList [recordA, recordB] "en"
          = .ok (keys.map (Web.groupElementOf "en" [recordA, recordB]))
        ∧ keys.Pairwise (fun x y => Web.jsStringLt x y = true)
        ∧ (∀ key, key ∈ keys ↔ ∃ c ∈ [recordA, recordB], Web.animeKey "en" c = key)
        ∧ (keys.map (fun key => (Web.charactersOf "en" [recordA, recordB] key).length)).sum
            = [recordA, recordB].length :=
  web_grouped_list_of_own_keys [recordA, recordB] "en" (by decide)

/-- The example of the specification: two records with the anime keys `X` and `Y` give the
groups `X` and `Y`, in this order, each with count 1. -/
theorem web_grouped_list_example :
    Web.getGroupedCharacterList [recordA, recordB] "en"
      = .ok [{ arrow := "▼", headerText := "📺 X (1人)", collapsed := false
               tags := [Web.createCharacterTag recordA "en"] },
             { arrow := "▼", headerText := "📺 Y (1人)", collapsed := false
               tags := [Web.createCharacterTag recordB "en"] }] :=
  rfl

/-- Counterexample for C8. Grouped variant, one widget showing `recordA` and `recordB`, both
toggled.  In `zh-CN` the groups are sorted by the Chinese anime names and `recordB` is
published first; in `en` they are sorted by the English ones and `recordA` is first.  The two
published values differ. -/
theorem web_language_changes_published_order :
    Web.publishedAt (Web.toggleKeys 0
        (Web.soleWidget plainNode [recordA, recordB] "zh-CN") ["A", "B"]) 0
        = some (stringifyArray [Web.recordDescriptor recordB, Web.recordDescriptor recordA])
      ∧ Web.publishedAt (Web.toggleKeys 0
        (Web.soleWidget plainNode [recordA, recordB] "en") ["A", "B"]) 0
        = some (stringifyArray [Web.recordDescriptor recordA, Web.recordDescriptor recordB])
      ∧ Web.publishedAt (Web.toggleKeys 0
          (Web.soleWidget plainNode [recordA, recordB] "zh-CN") ["A", "B"]) 0
        ≠ Web.publishedAt (Web.toggleKeys 0
          (Web.soleWidget plainNode [recordA, recordB] "en") ["A", "B"]) 0 := by
  decide

/-- C8, amended. Grouped variant, a page whose only widget shows a catalog with pairwise
distinct english names and without inherited anime keys, on a node with a `selected_data`
widget.  After any non-empty series of toggles of entries of the catalog, under either of
two display languages, `selected_data` is the JSON array of the descriptors of the records
toggled an odd number of times, in the render order of that language; a descriptor holds the
record's six fields, the english name as `character_english_name`, and no display name.  The
two arrays hold the same descriptors, each once, possibly in a different order. -/
theorem web_published_selection_two_languages (node : Node) (characters : Catalog)
    (keys : List String) (language1 language2 : String)
    (hdistinct : (characters.map (fun c => c.character_english_name)).Nodup)
    (hwidget : findSelectedData node.widgets ≠ none) (hne : keys ≠ [])
    (hkeys : ∀ k ∈ keys, k ∈ characters.map (fun c => c.character_english_name))
    (hown1 : Web.noInheritedKey language1 characters = true)
    (hown2 : Web.noInheritedKey language2 characters = true) :
    Web.publishedAt (Web.toggleKeys 0 (Web.soleWidget node characters language1) keys) 0
        = some (stringifyArray ((Web.oddRecords keys
            (Web.renderOrder language1 characters)).map Web.recordDescriptor))
      ∧ Web.publishedAt (Web.toggleKeys 0 (Web.soleWidget node characters language2) keys) 0
        = some (stringifyArray ((Web.oddRecords keys
            (Web.renderOrder language2 characters)).map Web.recordDescriptor))
      ∧ (Web.oddRecords keys (Web.renderOrder language1 characters)).Perm
          (Web.oddRecords keys (Web.renderOrder language2 characters))
      ∧ (Web.oddRecords keys (Web.renderOrder language1 characters)).Perm
          (Web.oddRecords keys characters)
      ∧ ((Web.oddRecords keys (Web.renderOrder language1 characters)).map
          (fun c => c.character_english_name)).Nodup := by
  have p1 : (Web.oddRecords keys (Web.renderOrder language1 characters)).Perm
      (Web.oddRecords keys characters) :=
    (Web.web_renderOrder_perm language1 characters).filter _
  have p2 : (Web.oddRecords keys (Web.renderOrder language2 characters)).Perm
      (Web.oddRecords keys characters) :=
    (Web.web_renderOrder_perm language2 characters).filter _
  refine ⟨Web.web_published_descriptors node characters language1 keys hdistinct hwidget hne
      hkeys hown1,
    Web.web_published_descriptors node characters language2 keys hdistinct hwidget hne
      hkeys hown2, p1.trans p2.symm, p1, ?_⟩
  have hsub : ((Web.oddRecords keys characters).map (fun c => c.character_english_name)).Sublist
      (characters.map (fun c => c.character_english_name)) :=
    (List.filter_sublist characters).map _
  exact ((p1.map (fun c => c.character_english_name)).nodup_iff).mpr (hdistinct.sublist hsub)

/-- Witness for C8, amended: the two records of the counterexample, both toggled, in `zh-CN`
and in `en`. -/
theorem web_published_selection_two_languages_witness :
    (Web.oddRecords ["A", "B"] (Web.renderOrder "zh-CN" [recordA, recordB])).Perm
      (Web.oddRecords ["A", "B"] (Web.renderOrder "en" [recordA, recordB])) :=
  (web_published_selection_two_languages plainNode [recordA, recordB] ["A", "B"] "zh-CN" "en"
    (by decide) (by decide) (by decide) (by decide) (by decide) (by decide)).2.2.1

/-! ### Boxes and marks in the flat variant -/

namespace Flat

theorem flat_step_synced (language : String) (σ : Session) (e : Event)
    (h : ∀ t ∈ σ.widget.list, t.checked = t.selected) :
    ∀ t ∈ (step language σ e).widget.list, t.checked = t.selected := by
  cases e with
  | input value => exact h
  | settle k outcome =>
    cases hk : σ.pending[k]? with
    | none =>
      simp only [step, hk]
      exact h
    | some value =>
      rw [flat_step_settle language σ k outcome value hk]
      cases hr : (getAnimeCharacters (fun _ => outcome) σ.cache value "").1 with
      | rejected e =>
        simp only [flat_oninputSettle_rejected (fun _ => outcome) language value
          (σ.widget, σ.cache) e hr]
        exact h
      | resolved data =>
        simp only [flat_oninputSettle_resolved (fun _ => outcome) language value
          (σ.widget, σ.cache) data hr]
        intro t ht
        obtain ⟨h1, h2⟩ := flat_fresh_tags data language t ht
        rw [h1, h2]
  | click i =>
    intro t ht
    simp only [step, tagOnclick_list] at ht
    have key : ∀ (l : List Tag) (j : Nat), (∀ u ∈ l, u.checked = u.selected) →
        ∀ u ∈ updateAt toggleTag l j, u.checked = u.selected := by
      intro l
      induction l with
      | nil => intro j _ u hu; simp [updateAt] at hu
      | cons a as ih =>
        intro j hl u hu
        cases j with
        | zero =>
          simp only [updateAt, List.mem_cons] at hu
          rcases hu with hu | hu
          · rw [hu]; rfl
          · exact hl u (List.mem_cons_of_mem _ hu)
        | succ j =>
          simp only [updateAt, List.mem_cons] at hu
          rcases hu with hu | hu
          · rw [hu]; exact hl a (List.mem_cons_self _ _)
          · exact ih j (fun v hv => hl v (List.mem_cons_of_mem _ hv)) u hu
    exact key σ.widget.list i h t ht
  | clear =>
    intro t ht
    have hlist : (step language σ .clear).widget.list = σ.widget.list.map clearTag := by
      simp only [step, deleteOnclick]
      cases findSelectedData σ.widget.node.widgets <;> rfl
    rw [hlist, List.mem_map] at ht
    obtain ⟨u, hu, rfl⟩ := ht
    unfold clearTag
    split
    · rfl
    · exact h u hu

theorem flat_run_synced (language : String) (σ : Session) (events : List Event)
    (h : ∀ t ∈ σ.widget.list, t.checked = t.selected) :
    ∀ t ∈ (run language σ events).widget.list, t.checked = t.selected := by
  induction events generalizing σ with
  | nil => exact h
  | cons e es ih => exact ih (step language σ e) (flat_step_synced language σ e h)

end Flat

/-- Flat variant: in every state the handlers produce from a freshly attached widget, the
box of a tag is checked exactly when the tag is marked, and clear-all leaves every tag
unmarked with its box unchecked. -/
theorem flat_clear_all_unchecks_every_box (language : String) (node : Node)
    (events : List Flat.Event) :
    ∀ t ∈ (Flat.step language (Flat.run language (Flat.idle node) events) .clear).widget.list,
      t.selected = false ∧ t.checked = false := by
  intro t ht
  have hsync := Flat.flat_run_synced language (Flat.idle node) events
    (by intro u hu; simp [Flat.idle] at hu)
  have hlist : (Flat.step language (Flat.run language (Flat.idle node) events) .clear).widget.list
      = (Flat.run language (Flat.idle node) events).widget.list.map Flat.clearTag := by
    simp only [Flat.step, Flat.deleteOnclick]
    cases findSelectedData (Flat.run language (Flat.idle node) events).widget.node.widgets <;> rfl
  rw [hlist, List.mem_map] at ht
  obtain ⟨u, hu, rfl⟩ := ht
  have hu2 := hsync u hu
  unfold Flat.clearTag
  split
  · exact ⟨rfl, rfl⟩
  · rename_i hsel
    have hfalse : u.selected = false := by simpa using hsel
    exact ⟨hfalse, by rw [hu2, hfalse]⟩

end AnimeNameHelper
